import Mathlib

/-!
Verification of the directive interpreter of `src/poster/renderer.py`
(`PosterRenderer._render_template_content` and its local helper functions
`resolve_value`, `replace_simple_variables`, `process_conditionals`,
`process_loops`, `process_template`, and the final cleanup substitution).

The Python code works by four sequential `re.sub` passes over the template
text (if-blocks, unless-blocks, each-blocks, simple variables) followed by a
cleanup substitution removing any remaining `\x7b\x7b...\x7d\x7d` markers.
We embed the text as `List Char` and each `re.sub` pass as a left-to-right
scanner that, at each position, attempts the (deterministic) regex match and
otherwise advances one character; replacements are spliced in and never
rescanned by the same pass, exactly as `re.sub` behaves.

Two modelling notes:

* The scanners carry a `Nat` fuel initialised to `length + 1`; every scanning
  step consumes at least one character, so this fuel never runs out.  It only
  serves to make the definitions structurally recursive (and hence reducible
  by the kernel).

* `process_template` recurses into block bodies, and this recursion is
  genuinely unbounded: substituted context values may re-introduce directive
  text that is re-expanded by an enclosing pass.  In Python this is cut off
  by the interpreter's recursion limit (`sys.getrecursionlimit()`, 1000 by
  default), the resulting `RecursionError` being an `Exception` caught by the
  `try/except` in `_render_template_content`.  We model this with an explicit
  recursion budget: exhausting it produces the `recursionLimit` fault, which
  the top-level `render` turns into the cleanup-of-original fallback, exactly
  like the Python `except` branch.

* Numeric context values are modelled by integers (`str`/truthiness of Python
  ints coincide with the model); `float` values are floating point and outside
  the fragment the claims exercise.
-/

namespace Renderer

/-- Python `\w` for `str` patterns is Unicode-aware: it matches `[a-zA-Z0-9_]`
plus every Unicode alphanumeric character (categories L*, N*).  The model is
exact for all code points below `0x100` (ASCII plus the Latin-1 block, whose
word characters are the letters, `ª µ º`, and the numeric characters
`² ³ ¹ ¼ ½ ¾`); word characters above `0xff` (CJK etc.) are outside the
fragment the claims exercise and are not modelled. -/
def isPyWordChar (c : Char) : Bool :=
  let n := c.toNat
  (48 ≤ n && n ≤ 57) || (65 ≤ n && n ≤ 90) || (97 ≤ n && n ≤ 122) || n = 95 ||
  n = 0xaa || n = 0xb5 || n = 0xba ||
  n = 0xb2 || n = 0xb3 || n = 0xb9 || (0xbc ≤ n && n ≤ 0xbe) ||
  (0xc0 ≤ n && n ≤ 0xd6) || (0xd8 ≤ n && n ≤ 0xf6) || (0xf8 ≤ n && n ≤ 0xff)

/-- Python `\s` for `str` patterns: ASCII whitespace plus the further
Unicode whitespace code points below `0x100`. -/
def isPySpace (c : Char) : Bool :=
  let n := c.toNat
  n = 32 || (9 ≤ n && n ≤ 13) || (0x1c ≤ n && n ≤ 0x1f) || n = 0x85 || n = 0xa0

/-- The JSON-like values the renderer's data context holds.  `null` is
Python `None`; dictionaries are insertion-ordered key/value lists with
(unique) string keys, as Python dicts are. -/
inductive Val where
  | null
  | bool (b : Bool)
  | int (n : Int)
  | str (s : List Char)
  | list (xs : List Val)
  | dict (m : List (List Char × Val))

/-- A data context: the entry list of a Python dict. -/
def Ctx := List (List Char × Val)

/-- Python `d[k]` / `k in d` on the entry list of a dict. -/
def lookupCtx (k : List Char) : List (List Char × Val) → Option Val
  | [] => none
  | (k2, v) :: r => if k2 = k then some v else lookupCtx k r

/-- One `d[k] = v` store: Python dicts replace the value in place when the
key is present and append the new entry otherwise. -/
def setKey (m : List (List Char × Val)) (k : List Char) (v : Val) :
    List (List Char × Val) :=
  if m.any (fun e => e.1 = k) then
    m.map (fun e => if e.1 = k then (k, v) else e)
  else
    m ++ [(k, v)]

/-- Python `m.update(kvs)` on entry lists. -/
def dictUpd (m : List (List Char × Val)) (kvs : List (List Char × Val)) :
    List (List Char × Val) :=
  kvs.foldl (fun acc e => setKey acc e.1 e.2) m

/-- Python `key_path.split(".")` (note `"".split(".") = [""]`,
`"a..b".split(".") = ["a", "", "b"]`). -/
def splitDots : List Char → List (List Char)
  | [] => [[]]
  | c :: r =>
    if c = '.' then [] :: splitDots r
    else
      match splitDots r with
      | [] => [[c]]
      | s :: ss => (c :: s) :: ss

/-- The loop of `resolve_value`: walk the key path, requiring a dict holding
the exact key at every step; any failure yields `None` (absent). -/
def resolveGo : List (List Char) → Val → Option Val
  | [], v => some v
  | k :: ks, v =>
    match v with
    | .dict m =>
      match lookupCtx k m with
      | some v2 => resolveGo ks v2
      | none => none
    | _ => none

/-- `resolve_value(key_path, data_context)` from the source: split the path
on `.` and walk nested dicts, returning `None` (absent) on any failure. -/
def resolveValue (p : List Char) (ctx : Ctx) : Option Val :=
  resolveGo (splitDots p) (.dict ctx)

/-- `s.replace(pat, repl)` for a single-character pattern (the only form the
source uses): every occurrence of the character is replaced independently. -/
def replaceChar (c : Char) (r : List Char) : List Char → List Char
  | [] => []
  | d :: t => (if d = c then r else [d]) ++ replaceChar c r t

/-- The HTML escaping chain of `replace_simple_variables`, in source order:
`&` first, then `<`, then `>`, then `"`. -/
def htmlEscape (s : List Char) : List Char :=
  replaceChar '\x22' "&quot;".data
    (replaceChar '>' "&gt;".data
      (replaceChar '<' "&lt;".data
        (replaceChar '&' "&amp;".data s)))

/-- Escape the body of a Python string repr with quote character `q`
(backslash, the quote, and the common control characters; further
non-printable escapes are outside the fragment the claims exercise). -/
def pyEsc (q : Char) : List Char → List Char
  | [] => []
  | c :: r =>
    (if c = '\x5c' then ['\x5c', '\x5c']
     else if c = q then ['\x5c', q]
     else if c = '\x0a' then ['\x5c', 'n']
     else if c = '\x0d' then ['\x5c', 'r']
     else if c = '\x09' then ['\x5c', 't']
     else [c]) ++ pyEsc q r

/-- Python `repr` of a string: single quotes, unless the text contains a
single quote and no double quote. -/
def pyQuote (s : List Char) : List Char :=
  let q := if s.contains '\x27' && !(s.contains '\x22') then '\x22' else '\x27'
  q :: pyEsc q s ++ [q]

mutual

/-- Python `repr` on context values (reachable through `str` on lists and
dicts in the fall-through branch of the variable replacer). -/
def pyRepr : Val → List Char
  | .null => "None".data
  | .bool b => if b then "True".data else "False".data
  | .int n => (toString n).data
  | .str s => pyQuote s
  | .list xs => '[' :: pyReprList xs ++ [']']
  | .dict m => '\x7b' :: pyReprDict m ++ ['\x7d']

/-- Comma-separated reprs of the items of a list. -/
def pyReprList : List Val → List Char
  | [] => []
  | [v] => pyRepr v
  | v :: r => pyRepr v ++ ',' :: ' ' :: pyReprList r

/-- Comma-separated `key: value` reprs of the entries of a dict. -/
def pyReprDict : List (List Char × Val) → List Char
  | [] => []
  | [(k, v)] => pyQuote k ++ ':' :: ' ' :: pyRepr v
  | (k, v) :: r => pyQuote k ++ ':' :: ' ' :: pyRepr v ++ ',' :: ' ' :: pyReprDict r

end

/-- Python `str` on context values. -/
def pyStr : Val → List Char
  | .str s => s
  | v => pyRepr v

/-- The replacement text `replacer` produces for a resolved value:
`None` (absent or JSON null) becomes empty text, booleans the lowercase
words, numbers their decimal form, strings their HTML-escaped text, and any
other value its Python `str` form. -/
def valueText : Option Val → List Char
  | none => []
  | some .null => []
  | some (.bool b) => if b then "true".data else "false".data
  | some (.int n) => (toString n).data
  | some (.str s) => htmlEscape s
  | some v => pyStr v

/-- The `if_replacer` condition:
`value is not None and ((isinstance(value, bool) and value) or
(isinstance(value, (str, list, dict)) and value) or
(isinstance(value, (int, float)) and value != 0))`. -/
def isTruthy : Option Val → Bool
  | none => false
  | some .null => false
  | some (.bool b) => b
  | some (.str s) => !s.isEmpty
  | some (.list xs) => !xs.isEmpty
  | some (.dict m) => !m.isEmpty
  | some (.int n) => n != 0

/-- The `unless_replacer` condition:
`value is None or ((isinstance(value, bool) and not value) or
(isinstance(value, (str, list, dict)) and not value) or
(isinstance(value, (int, float)) and value == 0))`
(for a `bool` the final disjunct compares `True == 0` / `False == 0`,
so the condition is exactly `not value`). -/
def unlessKeeps : Option Val → Bool
  | none => true
  | some .null => true
  | some (.bool b) => !b
  | some (.str s) => s.isEmpty
  | some (.list xs) => xs.isEmpty
  | some (.dict m) => m.isEmpty
  | some (.int n) => n == 0

/-- Faults the pipeline can produce: the Python recursion limit
(`RecursionError`) and an injected resolver failure (any other exception
raised below `process_template`). -/
inductive Fault where
  | recursionLimit
  | injected
  deriving DecidableEq

/-- A resolver as seen by the pipeline; `realRes` below never faults, but the
top-level catch is verified against arbitrary (fault-injecting) resolvers. -/
def Res := List Char → Ctx → Except Fault (Option Val)

/-- The actual resolver of the source: `resolve_value`, which never raises. -/
def realRes : Res := fun p ctx => .ok (resolveValue p ctx)

/-- Split a list after its maximal prefix of characters satisfying `f`
(the greedy match of `f*` at the start of the text). -/
def spanP (f : Char → Bool) : List Char → List Char × List Char
  | [] => ([], [])
  | c :: r => if f c then (c :: (spanP f r).1, (spanP f r).2) else ([], c :: r)

/-- Strip an expected literal prefix, returning the remainder on success. -/
def stripPfx : List Char → List Char → Option (List Char)
  | [], s => some s
  | _ :: _, [] => none
  | c :: p, d :: s => if c = d then stripPfx p s else none

/-- Greedy match of the tail of the path grammar `\w+(?:\.\w+)*` at the start
of the text, returning the consumed characters and the rest.  A dot is
consumed only when a word character follows it, matching the regex backtrack
behaviour (`[^.}]` classes are disjoint, so the match is deterministic). -/
def segsGo : List Char → List Char × List Char
  | [] => ([], [])
  | [c] => if isPyWordChar c then ([c], []) else ([], [c])
  | c :: d :: r =>
    if isPyWordChar c then
      match segsGo (d :: r) with
      | (a, b) => (c :: a, b)
    else if c = '.' && isPyWordChar d then
      match segsGo (d :: r) with
      | (a, b) => ('.' :: a, b)
    else ([], c :: d :: r)

/-- Match `\w+(?:\.\w+)*` at the start of the text: the first character must
be a word character, after which the greedy deterministic scan applies. -/
def parsePath : List Char → Option (List Char × List Char)
  | [] => none
  | c :: r => if isPyWordChar c then some (segsGo (c :: r)) else none

/-- Validity of the tail of a path (the text after its mandatory leading
word character): word characters continue a segment, a dot must be followed
by a word character starting the next segment. -/
def pathRest : List Char → Bool
  | [] => true
  | [c] => isPyWordChar c
  | c :: d :: r =>
    if isPyWordChar c then pathRest (d :: r)
    else if c = '.' then isPyWordChar d && pathRest (d :: r)
    else false

/-- Anchored form of the path grammar. -/
def pathOkB : List Char → Bool
  | [] => false
  | c :: r => isPyWordChar c && pathRest r

/-- Keyword of the `if` block directives. -/
def ifKw : List Char := ['i', 'f']

/-- Keyword of the `unless` block directives. -/
def unlessKw : List Char := ['u', 'n', 'l', 'e', 's', 's']

/-- Keyword of the `each` block directives. -/
def eachKw : List Char := ['e', 'a', 'c', 'h']

/-- The closing marker `\x7b\x7b/KW\x7d\x7d` of a block kind. -/
def closeTagOf (kw : List Char) : List Char :=
  '\x7b' :: '\x7b' :: '/' :: kw ++ ['\x7d', '\x7d']

/-- The canonical opening marker `\x7b\x7b#KW PATH\x7d\x7d` (single space;
the source pattern accepts any `\s+` run, which `parseOpen` also handles). -/
def mkOpen (kw p : List Char) : List Char :=
  '\x7b' :: '\x7b' :: '#' :: kw ++ ' ' :: p ++ ['\x7d', '\x7d']

/-- Match the opener `\x7b\x7b#KW\s+(\w+(?:\.\w+)*)\x7d\x7d` at the start of
the text, returning the captured path and the remainder.  The character
classes of the successive regex pieces are pairwise disjoint, so the greedy
match is deterministic and no backtracking can succeed where this fails. -/
def parseOpen (kw : List Char) (s : List Char) : Option (List Char × List Char) :=
  match stripPfx ('\x7b' :: '\x7b' :: '#' :: kw) s with
  | none => none
  | some r1 =>
    match spanP isPySpace r1 with
    | (sp, r2) =>
      if sp.isEmpty then none
      else
        match parsePath r2 with
        | none => none
        | some (p, r3) =>
          match stripPfx ['\x7d', '\x7d'] r3 with
          | none => none
          | some r4 => some (p, r4)

/-- The lazy `(.*?)CLOSE` match: find the earliest occurrence of the closing
marker, returning the body before it and the text after it. -/
def findClose (close : List Char) : List Char → Option (List Char × List Char)
  | [] => none
  | c :: r =>
    match stripPfx close (c :: r) with
    | some tail => some ([], tail)
    | none =>
      match findClose close r with
      | some (b, t) => some (c :: b, t)
      | none => none

/-- One `re.sub` scan for a block pattern
`\x7b\x7b#KW\s+PATH\x7d\x7d(.*?)\x7b\x7b/KW\x7d\x7d` (with `re.DOTALL`):
at each position try the opener; on a full match emit the replacement and
continue after the closing marker (replacements are never rescanned),
otherwise advance one character.  Each step consumes at least one character,
so the fuel of the `subBlocksE` wrapper never runs out. -/
def subGo (kw : List Char) (repl : List Char → List Char → Except Fault (List Char)) :
    Nat → List Char → Except Fault (List Char)
  | _, [] => .ok []
  | 0, s => .ok s
  | f + 1, c :: r =>
    match parseOpen kw (c :: r) with
    | some (p, after) =>
      match findClose (closeTagOf kw) after with
      | some (b, tail) => do
        let x ← repl p b
        let y ← subGo kw repl f tail
        .ok (x ++ y)
      | none => do
        let y ← subGo kw repl f r
        .ok (c :: y)
    | none => do
      let y ← subGo kw repl f r
      .ok (c :: y)

/-- A whole `re.sub` pass for one block kind. -/
def subBlocksE (kw : List Char) (repl : List Char → List Char → Except Fault (List Char))
    (s : List Char) : Except Fault (List Char) :=
  subGo kw repl (s.length + 1) s

/-- The `if` half of `process_conditionals`: `if_replacer` keeps and
recursively processes the body exactly when the resolved condition is
truthy, and otherwise replaces the whole block with empty text. -/
def ifPass (R : Res) (pt : Ctx → List Char → Except Fault (List Char))
    (ctx : Ctx) (s : List Char) : Except Fault (List Char) :=
  subBlocksE ifKw
    (fun p b => do
      let v ← R p ctx
      if isTruthy v then pt ctx b else .ok []) s

/-- The `unless` half of `process_conditionals`: `unless_replacer` keeps the
body exactly when the `unless` condition holds. -/
def unlessPass (R : Res) (pt : Ctx → List Char → Except Fault (List Char))
    (ctx : Ctx) (s : List Char) : Except Fault (List Char) :=
  subBlocksE unlessKw
    (fun p b => do
      let v ← R p ctx
      if unlessKeeps v then pt ctx b else .ok []) s

/-- `process_conditionals`: the `if` substitution followed by the `unless`
substitution on its output. -/
def processConditionals (R : Res) (pt : Ctx → List Char → Except Fault (List Char))
    (ctx : Ctx) (s : List Char) : Except Fault (List Char) := do
  let s1 ← ifPass R pt ctx s
  unlessPass R pt ctx s1

/-- The per-item scope of `each_replacer`: a copy of the enclosing context
updated with the four loop bindings (in the dict-literal order `this`,
`index`, `first`, `last`) and then, when the item is itself a dict, with all
of the item's own entries. -/
def itemCtx (ctx : Ctx) (item : Val) (i : Nat) (len : Nat) : Ctx :=
  let base := dictUpd ctx
    [("this".data, item), ("index".data, .int i),
     ("first".data, .bool (i == 0)), ("last".data, .bool (i == len - 1))]
  match item with
  | .dict m => dictUpd base m
  | _ => base

/-- The loop of `each_replacer`: process the body once per item against the
per-item scope and join the results with no separator. -/
def eachItems (f : Nat → Val → Except Fault (List Char)) :
    Nat → List Val → Except Fault (List Char)
  | _, [] => .ok []
  | i, v :: rest => do
    let a ← f i v
    let b ← eachItems f (i + 1) rest
    .ok (a ++ b)

/-- `process_loops`: `each_replacer` yields empty text unless the path
resolves to a non-empty list, and otherwise concatenates the per-item
expansions in list order. -/
def processLoops (R : Res) (pt : Ctx → List Char → Except Fault (List Char))
    (ctx : Ctx) (s : List Char) : Except Fault (List Char) :=
  subBlocksE eachKw
    (fun p b => do
      let v ← R p ctx
      match v with
      | some (.list xs) =>
        if xs.isEmpty then .ok []
        else eachItems (fun i it => pt (itemCtx ctx it i xs.length) b) 0 xs
      | _ => .ok []) s

/-- The two literal opening braces every marker pattern starts with. -/
def braces2 : List Char → Option (List Char)
  | c :: d :: rest => if c = '\x7b' && d = '\x7b' then some rest else none
  | _ => none

/-- Decide whether the simple-variable pattern
`\x7b\x7b(\w+(?:\.\w+)*)\x7d\x7d` matches right after a `\x7b\x7b`: the
greedy path capture must be followed immediately by the closing braces. -/
def varHit (rest : List Char) : Option (List Char × List Char) :=
  match parsePath rest with
  | some pr =>
    match stripPfx ['\x7d', '\x7d'] pr.2 with
    | some rest2 => some (pr.1, rest2)
    | none => none
  | none => none

/-- Match of the whole simple-variable pattern at the current position. -/
def varMatchAt (s : List Char) : Option (List Char × List Char) :=
  (braces2 s).bind varHit

/-- One `re.sub` scan of the simple-variable pattern: a recognised marker is
replaced by the text of its resolved value, anything else is copied;
replacements are never rescanned.  Fuel as in `subGo`. -/
def varGo (res : List Char → Except Fault (Option Val)) :
    Nat → List Char → Except Fault (List Char)
  | _, [] => .ok []
  | 0, s => .ok s
  | f + 1, c :: r =>
    match varMatchAt (c :: r) with
    | some (p, rest2) => do
      let v ← res p
      let y ← varGo res f rest2
      .ok (valueText v ++ y)
    | none => do
      let y ← varGo res f r
      .ok (c :: y)

/-- `replace_simple_variables`. -/
def replaceSimpleVariables (R : Res) (ctx : Ctx) (s : List Char) :
    Except Fault (List Char) :=
  varGo (fun p => R p ctx) (s.length + 1) s

/-- `process_template`: conditionals, then loops, then variables, recursing
into selected block bodies through the replacers.  The `Nat` budget models
the Python recursion limit (see the header comment). -/
def processTemplateR (R : Res) : Nat → Ctx → List Char → Except Fault (List Char)
  | 0, _, _ => .error .recursionLimit
  | n + 1, ctx, s => do
    let s1 ← processConditionals R (processTemplateR R n) ctx s
    let s2 ← processLoops R (processTemplateR R n) ctx s1
    replaceSimpleVariables R ctx s2

/-- Decide whether the cleanup pattern `\x7b\x7b[^\x7d]*\x7d\x7d` matches
right after a `\x7b\x7b`: the greedy run of non-`\x7d` characters must be
followed immediately by the two closing braces. -/
def cleanHit (rest : List Char) : Option (List Char) :=
  stripPfx ['\x7d', '\x7d'] (spanP (fun c => c != '\x7d') rest).2

/-- Match of the whole cleanup pattern at the current position. -/
def cleanMatchAt (s : List Char) : Option (List Char) :=
  (braces2 s).bind cleanHit

/-- One `re.sub` scan of the cleanup pattern: remove each leftmost match and
continue after it, otherwise advance one character.  Fuel as in `subGo`. -/
def cleanupGo : Nat → List Char → List Char
  | _, [] => []
  | 0, s => s
  | f + 1, c :: r =>
    match cleanMatchAt (c :: r) with
    | some rest2 => cleanupGo f rest2
    | none => c :: cleanupGo f r

/-- The cleanup pass `re.sub(r"\x7b\x7b[^\x7d]*\x7d\x7d", "", content)`. -/
def cleanup (s : List Char) : List Char :=
  cleanupGo (s.length + 1) s

/-- The body of `_render_template_content`: process the template and clean
the result; if any fault escapes `process_template`, fall back to the
cleanup pass applied directly to the original template. -/
def renderCoreR (R : Res) (n : Nat) (ctx : Ctx) (t : List Char) : List Char :=
  match processTemplateR R n ctx t with
  | .ok c => cleanup c
  | .error _ => cleanup t

/-- `_render_template_content` with the real resolver and the default
CPython recursion limit. -/
def render (t : String) (ctx : Ctx) : String :=
  String.mk (renderCoreR realRes 1000 ctx t.data)

/-! ### Basic lemmas about the scanning primitives -/

@[simp] theorem ok_bind {α β : Type} (a : α) (g : α → Except Fault β) :
    (Except.ok a >>= g) = g a := rfl

@[simp] theorem error_bind {α β : Type} (e : Fault) (g : α → Except Fault β) :
    (Except.error e >>= g : Except Fault β) = Except.error e := rfl

theorem word_not_space {c : Char} (h : isPyWordChar c = true) : isPySpace c = false := by
  cases hsp : isPySpace c
  · rfl
  · exfalso
    simp only [isPySpace, Bool.or_eq_true, Bool.and_eq_true, decide_eq_true_eq] at hsp
    simp only [isPyWordChar, Bool.or_eq_true, Bool.and_eq_true, decide_eq_true_eq] at h
    omega

theorem dot_not_word : isPyWordChar '.' = false := by decide

theorem rbrace_not_word : isPyWordChar '\x7d' = false := by decide

theorem spanP_eq_append (f : Char → Bool) (s : List Char) :
    (spanP f s).1 ++ (spanP f s).2 = s := by
  induction s with
  | nil => simp [spanP]
  | cons c r ih =>
    by_cases h : f c
    · simp [spanP, h, ih]
    · simp [spanP, h]

theorem spanP_prepend (f : Char → Bool) (a b : List Char)
    (ha : ∀ c ∈ a, f c = true)
    (hb : ∀ c, b.head? = some c → f c = false) :
    spanP f (a ++ b) = (a, b) := by
  induction a with
  | nil =>
    cases b with
    | nil => simp [spanP]
    | cons c r =>
      have := hb c (by simp)
      simp [spanP, this]
  | cons c a ih =>
    have hc := ha c (by simp)
    have ih2 := ih (fun c hc => ha c (by simp [hc]))
    simp [spanP, hc, ih2]

theorem spanP_all (f : Char → Bool) (s : List Char) :
    ∀ c ∈ (spanP f s).1, f c = true := by
  induction s with
  | nil => simp [spanP]
  | cons d r ih =>
    by_cases hd : f d
    · intro x hx
      simp only [spanP, if_pos hd, List.mem_cons] at hx
      rcases hx with rfl | hx
      · exact hd
      · exact ih x hx
    · simp [spanP, hd]

theorem stripPfx_append (p t : List Char) : stripPfx p (p ++ t) = some t := by
  induction p with
  | nil => simp [stripPfx]
  | cons c p ih => simp [stripPfx, ih]

theorem stripPfx_eq {p s r : List Char} (h : stripPfx p s = some r) : s = p ++ r := by
  induction p generalizing s with
  | nil => simp [stripPfx] at h; simp [h]
  | cons c p ih =>
    cases s with
    | nil => simp [stripPfx] at h
    | cons d s =>
      simp only [stripPfx] at h
      by_cases hc : c = d
      · simp [hc] at h
        simp [← hc, ih h]
      · simp [hc] at h

theorem stripPfx_none_extend {p s : List Char} (h : stripPfx p s = none)
    (hl : p.length ≤ s.length) (t : List Char) : stripPfx p (s ++ t) = none := by
  induction p generalizing s with
  | nil => simp [stripPfx] at h
  | cons c p ih =>
    cases s with
    | nil => simp at hl
    | cons d s =>
      simp only [stripPfx] at h ⊢
      by_cases hc : c = d
      · simp only [hc, if_pos rfl] at h ⊢
        exact ih h (by simpa using hl)
      · simp [hc]

theorem segsGo_word {c : Char} (r : List Char) (h : isPyWordChar c = true) :
    segsGo (c :: r) = (c :: (segsGo r).1, (segsGo r).2) := by
  cases r with
  | nil => simp [segsGo, h]
  | cons d r2 => simp [segsGo, h]

theorem segsGo_dot_word {d : Char} (r : List Char) (h : isPyWordChar d = true) :
    segsGo ('.' :: d :: r) = ('.' :: (segsGo (d :: r)).1, (segsGo (d :: r)).2) := by
  simp [segsGo, dot_not_word, h]

theorem segsGo_stop {c : Char} (r : List Char) (hw : isPyWordChar c = false)
    (hd : c ≠ '.') : segsGo (c :: r) = ([], c :: r) := by
  cases r with
  | nil => simp [segsGo, hw]
  | cons d r2 => simp [segsGo, hw, hd]

theorem segsGo_dot_stop {d : Char} (r : List Char) (hw : isPyWordChar d = false) :
    segsGo ('.' :: d :: r) = ([], '.' :: d :: r) := by
  simp [segsGo, dot_not_word, hw]

theorem segsGo_eq_append (s : List Char) : (segsGo s).1 ++ (segsGo s).2 = s := by
  have H : ∀ n s, List.length s ≤ n → (segsGo s).1 ++ (segsGo s).2 = s := by
    intro n
    induction n with
    | zero => intro s hs; simp at hs; simp [hs, segsGo]
    | succ n ih =>
      intro s hs
      match s with
      | [] => simp [segsGo]
      | [c] =>
        by_cases h : isPyWordChar c <;> simp [segsGo, h]
      | c :: d :: r =>
        by_cases h : isPyWordChar c
        · have := ih (d :: r) (by simpa using Nat.le_of_succ_le_succ hs)
          simp [segsGo, h, this]
        · by_cases h2 : c = '.' ∧ isPyWordChar d
          · obtain ⟨rfl, hd⟩ := h2
            have := ih (d :: r) (by simpa using Nat.le_of_succ_le_succ hs)
            simp only [segsGo_dot_word _ hd]
            simpa using this
          · have h3 : ¬(c = '.' && isPyWordChar d) = true := by
              simp only [Bool.and_eq_true, decide_eq_true_eq]
              intro hc
              exact h2 ⟨hc.1, hc.2⟩
            simp [segsGo, h, h3]
  exact H s.length s le_rfl

theorem segsGo_chars (s : List Char) :
    ∀ c ∈ (segsGo s).1, isPyWordChar c = true ∨ c = '.' := by
  have H : ∀ n s, List.length s ≤ n →
      ∀ c ∈ (segsGo s).1, isPyWordChar c = true ∨ c = '.' := by
    intro n
    induction n with
    | zero => intro s hs; simp at hs; simp [hs, segsGo]
    | succ n ih =>
      intro s hs
      match s with
      | [] => simp [segsGo]
      | [c] =>
        by_cases h : isPyWordChar c <;> simp [segsGo, h]
      | c :: d :: r =>
        have hlen : List.length (d :: r) ≤ n := by simpa using Nat.le_of_succ_le_succ hs
        by_cases h : isPyWordChar c
        · simp only [segsGo_word _ h, List.mem_cons]
          rintro x (rfl | hx)
          · exact Or.inl h
          · exact ih _ hlen x hx
        · by_cases h2 : c = '.' ∧ isPyWordChar d
          · obtain ⟨rfl, hd⟩ := h2
            simp only [segsGo_dot_word _ hd, List.mem_cons]
            rintro x (rfl | hx)
            · exact Or.inr rfl
            · exact ih _ hlen x hx
          · have h3 : ¬(c = '.' && isPyWordChar d) = true := by
              simp only [Bool.and_eq_true, decide_eq_true_eq]
              intro hc
              exact h2 ⟨hc.1, hc.2⟩
            simp [segsGo, h, h3]
  exact H s.length s le_rfl

theorem pathRest_word {c : Char} (r : List Char) (h : isPyWordChar c = true) :
    pathRest (c :: r) = pathRest r := by
  cases r with
  | nil => simp [pathRest, h]
  | cons d r2 => simp [pathRest, h]

theorem pathRest_dot_word (d : Char) (r : List Char) :
    pathRest ('.' :: d :: r) = (isPyWordChar d && pathRest (d :: r)) := by
  simp [pathRest, dot_not_word]

/-- Greedy parse of the path grammar: a valid path followed by a character
that can extend neither a segment nor start a dot-segment is matched
exactly. -/
theorem segsGo_path {d : Char} (t : List Char) (hd : isPyWordChar d = false)
    (hd2 : d ≠ '.') :
    ∀ p, pathOkB p = true → segsGo (p ++ d :: t) = (p, d :: t) := by
  have H : ∀ n p, List.length p ≤ n → pathOkB p = true →
      segsGo (p ++ d :: t) = (p, d :: t) := by
    intro n
    induction n with
    | zero =>
      intro p hl hp
      simp at hl
      simp [hl, pathOkB] at hp
    | succ n ih =>
      intro p hl hp
      match p with
      | [] => simp [pathOkB] at hp
      | c :: r =>
        obtain ⟨hc, hr⟩ : isPyWordChar c = true ∧ pathRest r = true := by
          simpa [pathOkB] using hp
        match r with
        | [] =>
          simp only [List.cons_append, List.nil_append]
          rw [segsGo_word _ hc, segsGo_stop _ hd hd2]
        | e :: r2 =>
          by_cases he : isPyWordChar e
          · have hok : pathOkB (e :: r2) = true := by
              rw [pathRest_word _ he] at hr
              simp [pathOkB, he, hr]
            have hrec := ih (e :: r2) (by simpa using Nat.le_of_succ_le_succ hl) hok
            simp only [List.cons_append] at hrec ⊢
            rw [segsGo_word _ hc, hrec]
          · have hdot : e = '.' := by
              match r2 with
              | [] => simp [pathRest, he] at hr
              | g :: r3 =>
                by_contra hne
                simp [pathRest, he, hne] at hr
            subst hdot
            match r2 with
            | [] => simp [pathRest, dot_not_word] at hr
            | g :: r3 =>
              rw [pathRest_dot_word] at hr
              obtain ⟨hg, hr3⟩ : isPyWordChar g = true ∧ pathRest (g :: r3) = true := by
                simpa using hr
              have hok : pathOkB (g :: r3) = true := by
                rw [pathRest_word _ hg] at hr3
                simp [pathOkB, hg, hr3]
              have hrec := ih (g :: r3)
                (by simpa using Nat.le_of_succ_le_succ (Nat.le_of_succ_le hl)) hok
              simp only [List.cons_append] at hrec ⊢
              rw [segsGo_word _ hc, segsGo_dot_word _ hg, hrec]
  exact fun p => H p.length p le_rfl

/-- Converse of `segsGo_path`: if the greedy scan consumes exactly `w` and
stops at a non-extending character, then `w` continues the path grammar. -/
theorem segsGo_pathRest {d : Char} (hd : isPyWordChar d = false) (hd2 : d ≠ '.')
    (t : List Char) :
    ∀ w, segsGo (w ++ d :: t) = (w, d :: t) → pathRest w = true := by
  have H : ∀ n w, List.length w ≤ n → segsGo (w ++ d :: t) = (w, d :: t) →
      pathRest w = true := by
    intro n
    induction n with
    | zero =>
      intro w hl _
      simp at hl
      simp [hl, pathRest]
    | succ n ih =>
      intro w hl h
      match w with
      | [] => simp [pathRest]
      | e :: w2 =>
        simp only [List.cons_append] at h
        by_cases he : isPyWordChar e
        · rw [segsGo_word _ he] at h
          simp only [Prod.mk.injEq, List.cons.injEq, true_and] at h
          obtain ⟨h1, h2⟩ := h
          have hrec : segsGo (w2 ++ d :: t) = (w2, d :: t) := Prod.ext_iff.mpr ⟨h1, h2⟩
          rw [pathRest_word _ he]
          exact ih w2 (by simpa using Nat.le_of_succ_le_succ hl) hrec
        · have hdot : e = '.' := by
            by_contra hne
            rw [segsGo_stop _ (by simpa using he) hne] at h
            simp at h
          subst hdot
          match w2 with
          | [] =>
            simp only [List.nil_append] at h
            rw [segsGo_dot_stop _ hd] at h
            simp at h
          | g :: w3 =>
            simp only [List.cons_append] at h
            by_cases hg : isPyWordChar g
            · rw [segsGo_dot_word _ hg] at h
              simp only [Prod.mk.injEq, List.cons.injEq, true_and] at h
              obtain ⟨h1, h2⟩ := h
              have hrec : segsGo ((g :: w3) ++ d :: t) = (g :: w3, d :: t) := by
                simp only [List.cons_append]
                exact Prod.ext_iff.mpr ⟨h1, h2⟩
              have hpr := ih (g :: w3)
                (by simp only [List.length_cons] at hl ⊢; omega) hrec
              simp [pathRest_dot_word, hg, hpr]
            · rw [segsGo_dot_stop _ (by simpa using hg)] at h
              simp at h
  exact fun w => H w.length w le_rfl

/-- A valid path in a marker is matched exactly by the regex path capture. -/
theorem parsePath_path {p : List Char} (hp : pathOkB p = true) {d : Char}
    (t : List Char) (hd : isPyWordChar d = false) (hd2 : d ≠ '.') :
    parsePath (p ++ d :: t) = some (p, d :: t) := by
  match p with
  | [] => simp [pathOkB] at hp
  | c :: r =>
    have hc : isPyWordChar c = true := by
      simp only [pathOkB, Bool.and_eq_true] at hp
      exact hp.1
    rw [List.cons_append, parsePath, if_pos hc, ← List.cons_append,
      segsGo_path t hd hd2 _ hp]

theorem parsePath_sound {s p r : List Char} (h : parsePath s = some (p, r)) :
    s = p ++ r := by
  match s with
  | [] => simp [parsePath] at h
  | c :: s2 =>
    simp only [parsePath] at h
    by_cases hc : isPyWordChar c
    · rw [if_pos hc] at h
      have heq := segsGo_eq_append (c :: s2)
      simp only [Option.some.injEq] at h
      rw [h] at heq
      simpa using heq.symm
    · simp [hc] at h

theorem parsePath_chars {s p r : List Char} (h : parsePath s = some (p, r)) :
    ∀ c ∈ p, isPyWordChar c = true ∨ c = '.' := by
  match s with
  | [] => simp [parsePath] at h
  | c :: s2 =>
    simp only [parsePath] at h
    by_cases hc : isPyWordChar c
    · rw [if_pos hc] at h
      simp only [Option.some.injEq] at h
      intro x hx
      apply segsGo_chars (c :: s2)
      rw [h]
      exact hx
    · simp [hc] at h

/-- Converse: if the regex path capture inside a marker consumes exactly `w`
and stops at a non-extending character, `w` is a valid path. -/
theorem parsePath_rev {w : List Char} {d : Char} (t : List Char)
    (hd : isPyWordChar d = false) (hd2 : d ≠ '.')
    (h : parsePath (w ++ d :: t) = some (w, d :: t)) : pathOkB w = true := by
  match w with
  | [] =>
    rw [List.nil_append, parsePath, if_neg (by simp [hd])] at h
    exact absurd h (by simp)
  | c :: w2 =>
    simp only [List.cons_append, parsePath] at h
    by_cases hc : isPyWordChar c
    · rw [if_pos hc] at h
      simp only [Option.some.injEq] at h
      have hs : segsGo ((c :: w2) ++ d :: t) = (c :: w2, d :: t) := by
        rw [List.cons_append]
        exact h
      have hrest := segsGo_pathRest hd hd2 t _ hs
      rw [pathRest_word _ hc] at hrest
      simp [pathOkB, hc, hrest]
    · simp [hc] at h

theorem headq_mem {l : List Char} {c : Char} (h : l.head? = some c) : c ∈ l := by
  cases l with
  | nil => simp at h
  | cons d r => simp at h; simp [h]

/-- No premature closing marker: at no position strictly inside `b` does the
closing marker start (the `++ close` padding makes the check meaningful for
occurrences overlapping the end of `b`). -/
def noPremClose (close b : List Char) : Bool :=
  (List.range b.length).all (fun i => (stripPfx close (b.drop i ++ close)).isNone)

theorem noPremClose_tail {close : List Char} {c : Char} {b : List Char}
    (h : noPremClose close (c :: b) = true) : noPremClose close b = true := by
  simp only [noPremClose, List.all_eq_true, List.mem_range] at h ⊢
  intro i hi
  have := h (i + 1) (by simpa using hi)
  simpa using this

theorem noPremClose_head {close : List Char} {c : Char} {b : List Char}
    (h : noPremClose close (c :: b) = true) :
    stripPfx close ((c :: b) ++ close) = none := by
  simp only [noPremClose, List.all_eq_true, List.mem_range] at h
  have := h 0 (by simp)
  simpa [Option.isNone_iff_eq_none] using this

theorem findClose_sound {close : List Char} :
    ∀ {s b t : List Char}, findClose close s = some (b, t) → s = b ++ close ++ t := by
  intro s
  induction s with
  | nil => intro b t h; simp [findClose] at h
  | cons c r ih =>
    intro b t h
    simp only [findClose] at h
    cases hs : stripPfx close (c :: r) with
    | some tail =>
      simp only [hs, Option.some.injEq, Prod.mk.injEq] at h
      obtain ⟨rfl, rfl⟩ := h
      have := stripPfx_eq hs
      simpa using this
    | none =>
      simp only [hs] at h
      cases hr : findClose close r with
      | some bt =>
        obtain ⟨b2, t2⟩ := bt
        simp only [hr, Option.some.injEq, Prod.mk.injEq] at h
        obtain ⟨rfl, rfl⟩ := h
        have := ih hr
        simp [this]
      | none => simp [hr] at h

theorem findClose_block {close : List Char} (hne : close ≠ []) :
    ∀ {b : List Char} (rest : List Char), noPremClose close b = true →
      findClose close (b ++ (close ++ rest)) = some (b, rest) := by
  intro b
  induction b with
  | nil =>
    intro rest _
    match close, hne with
    | c :: close2, _ =>
      rw [List.nil_append, List.cons_append, findClose]
      have hs : stripPfx (c :: close2) (c :: (close2 ++ rest)) = some rest := by
        rw [← List.cons_append]
        exact stripPfx_append _ _
      rw [hs]
  | cons c b ih =>
    intro rest hb
    have h0 : stripPfx close ((c :: b) ++ close) = none := noPremClose_head hb
    have h0x : stripPfx close (c :: (b ++ (close ++ rest))) = none := by
      have := stripPfx_none_extend h0
        (by simp only [List.length_append, List.length_cons]; omega) rest
      rw [show ((c :: b) ++ close) ++ rest = c :: (b ++ (close ++ rest)) by simp] at this
      exact this
    rw [List.cons_append, findClose, h0x, ih rest (noPremClose_tail hb)]

/-- Full characterisation of a successful opener match. -/
theorem parseOpen_sound {kw s p after : List Char}
    (h : parseOpen kw s = some (p, after)) :
    ∃ sp, sp ≠ [] ∧ (∀ c ∈ sp, isPySpace c = true) ∧
      s = ('\x7b' :: '\x7b' :: '#' :: kw) ++ sp ++ p ++ '\x7d' :: '\x7d' :: after := by
  simp only [parseOpen] at h
  cases h1 : stripPfx ('\x7b' :: '\x7b' :: '#' :: kw) s with
  | none => simp [h1] at h
  | some r1 =>
    simp only [h1] at h
    cases h2 : spanP isPySpace r1 with
    | mk sp r2 =>
      simp only [h2] at h
      by_cases hsp : sp.isEmpty
      · rw [if_pos hsp] at h
        exact Option.noConfusion h
      · simp only [if_neg hsp] at h
        cases h3 : parsePath r2 with
        | none => simp [h3] at h
        | some pr3 =>
          obtain ⟨p2, r3⟩ := pr3
          simp only [h3] at h
          cases h4 : stripPfx ['\x7d', '\x7d'] r3 with
          | none => simp [h4] at h
          | some r4 =>
            simp only [h4, Option.some.injEq, Prod.mk.injEq] at h
            obtain ⟨rfl, rfl⟩ := h
            refine ⟨sp, by simpa using hsp, ?_, ?_⟩
            · intro c hc
              have hall := spanP_all isPySpace r1
              rw [h2] at hall
              exact hall c hc
            · have e1 := stripPfx_eq h1
              have e2 := spanP_eq_append isPySpace r1
              rw [h2] at e2
              have e3 := parsePath_sound h3
              have e4 := stripPfx_eq h4
              rw [e1, ← e2, e3, e4]
              simp

theorem pathOkB_head {p : List Char} (hp : pathOkB p = true) :
    ∃ c r, p = c :: r ∧ isPyWordChar c = true := by
  match p with
  | [] => simp [pathOkB] at hp
  | c :: r =>
    refine ⟨c, r, rfl, ?_⟩
    simp only [pathOkB, Bool.and_eq_true] at hp
    exact hp.1

/-- A canonical opener followed by arbitrary text matches the opener pattern
with exactly its own path captured. -/
theorem parseOpen_mk {kw p : List Char} (hp : pathOkB p = true) (t : List Char) :
    parseOpen kw (mkOpen kw p ++ t) = some (p, t) := by
  have e : mkOpen kw p ++ t
      = ('\x7b' :: '\x7b' :: '#' :: kw) ++ (' ' :: (p ++ '\x7d' :: '\x7d' :: t)) := by
    simp [mkOpen]
  have h1 := stripPfx_append ('\x7b' :: '\x7b' :: '#' :: kw)
    (' ' :: (p ++ '\x7d' :: '\x7d' :: t))
  have h2 : spanP isPySpace (' ' :: (p ++ '\x7d' :: '\x7d' :: t))
      = ([' '], p ++ '\x7d' :: '\x7d' :: t) := by
    have := spanP_prepend isPySpace [' '] (p ++ '\x7d' :: '\x7d' :: t)
      (by intro c hc; simp at hc; subst hc; decide)
      (by
        intro c hc
        obtain ⟨c2, r2, rfl, hw⟩ := pathOkB_head hp
        simp at hc
        subst hc
        exact word_not_space hw)
    simpa using this
  have h3 : parsePath (p ++ '\x7d' :: '\x7d' :: t) = some (p, '\x7d' :: '\x7d' :: t) :=
    parsePath_path hp _ rbrace_not_word (by decide)
  have h4 : stripPfx ['\x7d', '\x7d'] ('\x7d' :: '\x7d' :: t) = some t := by
    have := stripPfx_append ['\x7d', '\x7d'] t
    simpa using this
  rw [e]
  simp only [parseOpen, h1, h2, h3, h4]
  simp

theorem rrfree_cancel :
    ∀ {p w a b : List Char}, '\x7d' ∉ p → '\x7d' ∉ w →
      p ++ '\x7d' :: a = w ++ '\x7d' :: b → p = w ∧ a = b := by
  intro p
  induction p with
  | nil =>
    intro w a b _ hw h
    cases w with
    | nil => simpa using h
    | cons e w2 =>
      simp only [List.nil_append, List.cons_append, List.cons.injEq] at h
      exact absurd (h.1 ▸ List.mem_cons_self e w2) hw
  | cons c p2 ih =>
    intro w a b hp hw h
    cases w with
    | nil =>
      simp only [List.cons_append, List.nil_append, List.cons.injEq] at h
      exact absurd (h.1 ▸ List.mem_cons_self c p2) hp
    | cons e w2 =>
      simp only [List.cons_append, List.cons.injEq] at h
      obtain ⟨rfl, h2⟩ := h
      have := ih (fun hx => hp (List.mem_cons_of_mem _ hx))
        (fun hx => hw (List.mem_cons_of_mem _ hx)) h2
      exact ⟨by rw [this.1], this.2⟩

theorem append_rr_cancel :
    ∀ {B A after : List Char}, '\x7d' ∉ B →
      A ++ '\x7d' :: '\x7d' :: after = B ++ ['\x7d', '\x7d'] → after = [] := by
  intro B
  induction B with
  | nil =>
    intro A after _ h
    have := congrArg List.length h
    simp at this
    have : after.length = 0 := by omega
    simpa using this
  | cons e B2 ih =>
    intro A after hB h
    cases A with
    | nil =>
      simp only [List.nil_append, List.cons_append, List.cons.injEq] at h
      exact absurd (h.1 ▸ List.mem_cons_self e B2) hB
    | cons c A2 =>
      simp only [List.cons_append, List.cons.injEq] at h
      exact ih (fun hx => hB (List.mem_cons_of_mem _ hx)) h.2

theorem closeTagOf_ne (kw : List Char) : closeTagOf kw ≠ [] := by
  simp [closeTagOf]

/-! ### Step equations and scan lemmas for the block substitution -/

theorem subGo_nil (kw : List Char)
    (repl : List Char → List Char → Except Fault (List Char)) (f : Nat) :
    subGo kw repl f [] = .ok [] := by
  cases f <;> rfl

theorem subGo_step_none {kw : List Char}
    {repl : List Char → List Char → Except Fault (List Char)} {c : Char}
    {r : List Char} (f : Nat) (h : parseOpen kw (c :: r) = none) :
    subGo kw repl (f + 1) (c :: r) = (do
      let y ← subGo kw repl f r
      Except.ok (c :: y)) := by
  simp only [subGo, h]

theorem subGo_step_noclose {kw : List Char}
    {repl : List Char → List Char → Except Fault (List Char)} {c : Char}
    {r p after : List Char} (f : Nat) (h1 : parseOpen kw (c :: r) = some (p, after))
    (h2 : findClose (closeTagOf kw) after = none) :
    subGo kw repl (f + 1) (c :: r) = (do
      let y ← subGo kw repl f r
      Except.ok (c :: y)) := by
  simp only [subGo, h1, h2]

theorem subGo_step_found {kw : List Char}
    {repl : List Char → List Char → Except Fault (List Char)} {c : Char}
    {r p after b tail : List Char} (f : Nat)
    (h1 : parseOpen kw (c :: r) = some (p, after))
    (h2 : findClose (closeTagOf kw) after = some (b, tail)) :
    subGo kw repl (f + 1) (c :: r) = (do
      let x ← repl p b
      let y ← subGo kw repl f tail
      Except.ok (x ++ y)) := by
  simp only [subGo, h1, h2]

/-- A text that starts with a well-formed block is rewritten by replacing
that block (path and body as written) and scanning on after its closing
marker. -/
theorem subGo_block {kw : List Char}
    {repl : List Char → List Char → Except Fault (List Char)}
    {p b : List Char} (rest : List Char) (f : Nat) (hp : pathOkB p = true)
    (hb : noPremClose (closeTagOf kw) b = true) :
    subGo kw repl (f + 1) (mkOpen kw p ++ (b ++ (closeTagOf kw ++ rest))) = (do
      let x ← repl p b
      let y ← subGo kw repl f rest
      Except.ok (x ++ y)) := by
  have h1 := @parseOpen_mk kw p hp (b ++ (closeTagOf kw ++ rest))
  have h2 : findClose (closeTagOf kw) (b ++ (closeTagOf kw ++ rest)) = some (b, rest) :=
    findClose_block (closeTagOf_ne kw) rest hb
  have e : mkOpen kw p ++ (b ++ (closeTagOf kw ++ rest))
      = '\x7b' :: ('\x7b' :: '#' :: (kw ++ ' ' :: (p ++ '\x7d' :: '\x7d' ::
          (b ++ (closeTagOf kw ++ rest))))) := by
    simp [mkOpen]
  rw [e] at h1 ⊢
  exact subGo_step_found f h1 h2

/-- No opener of the scanned kind is ever completed by a closing marker
anywhere in the text. -/
def scanInert (kw s : List Char) : Prop :=
  ∀ i p after, parseOpen kw (s.drop i) = some (p, after) →
    findClose (closeTagOf kw) after = none

theorem scanInert_tail {kw : List Char} {c : Char} {r : List Char}
    (h : scanInert kw (c :: r)) : scanInert kw r := by
  intro i p after hi
  exact h (i + 1) p after (by simpa using hi)

/-- A pass over inert text copies it unchanged. -/
theorem subGo_inert {kw : List Char}
    {repl : List Char → List Char → Except Fault (List Char)} :
    ∀ (f : Nat) (s : List Char), scanInert kw s → subGo kw repl f s = .ok s := by
  intro f
  induction f with
  | zero => intro s _; cases s <;> rfl
  | succ f ih =>
    intro s hs
    cases s with
    | nil => rfl
    | cons c r =>
      have hshift := scanInert_tail hs
      cases hpo : parseOpen kw (c :: r) with
      | none => rw [subGo_step_none f hpo, ih r hshift]; rfl
      | some pa =>
        obtain ⟨p, after⟩ := pa
        have h2 := hs 0 p after (by simpa using hpo)
        rw [subGo_step_noclose f hpo h2, ih r hshift]
        rfl

/-- The scanning fuel is irrelevant as long as it exceeds the text length
(each step consumes at least one character). -/
theorem subGo_irrel {kw : List Char}
    {repl : List Char → List Char → Except Fault (List Char)} :
    ∀ (n : Nat) (s : List Char) (f1 f2 : Nat), s.length ≤ n →
      s.length < f1 → s.length < f2 → subGo kw repl f1 s = subGo kw repl f2 s := by
  intro n
  induction n with
  | zero =>
    intro s f1 f2 h0 _ _
    have : s = [] := by
      cases s with
      | nil => rfl
      | cons c r => simp at h0
    subst this
    rw [subGo_nil, subGo_nil]
  | succ n ih =>
    intro s f1 f2 h0 h1 h2
    cases s with
    | nil => rw [subGo_nil, subGo_nil]
    | cons c r =>
      obtain ⟨g1, rfl⟩ : ∃ g, f1 = g + 1 := ⟨f1 - 1, by omega⟩
      obtain ⟨g2, rfl⟩ : ∃ g, f2 = g + 1 := ⟨f2 - 1, by omega⟩
      have hr0 : r.length ≤ n := by simp at h0; omega
      have hr1 : r.length < g1 := by simp at h1; omega
      have hr2 : r.length < g2 := by simp at h2; omega
      cases hpo : parseOpen kw (c :: r) with
      | none =>
        rw [subGo_step_none g1 hpo, subGo_step_none g2 hpo, ih r g1 g2 hr0 hr1 hr2]
      | some pa =>
        obtain ⟨p, after⟩ := pa
        cases hfc : findClose (closeTagOf kw) after with
        | none =>
          rw [subGo_step_noclose g1 hpo hfc, subGo_step_noclose g2 hpo hfc,
            ih r g1 g2 hr0 hr1 hr2]
        | some bt =>
          obtain ⟨b, tail⟩ := bt
          have htail : tail.length < (c :: r).length := by
            obtain ⟨sp, hsp, -, heq⟩ := parseOpen_sound hpo
            rw [findClose_sound hfc] at heq
            have hlen := congrArg List.length heq
            have hsp1 : 1 ≤ sp.length := by
              cases sp with
              | nil => exact absurd rfl hsp
              | cons a b => simp
            simp only [List.length_cons, List.length_append, closeTagOf] at hlen ⊢
            omega
          simp only [List.length_cons] at htail h0 h1 h2
          have ht0 : tail.length ≤ n := by omega
          have ht1 : tail.length < g1 := by omega
          have ht2 : tail.length < g2 := by omega
          rw [subGo_step_found g1 hpo hfc, subGo_step_found g2 hpo hfc]
          simp only [ih tail g1 g2 ht0 ht1 ht2]

/-! ### Step equations and scan lemmas for variable substitution and cleanup -/

theorem braces2_sound {s rest : List Char} (h : braces2 s = some rest) :
    s = '\x7b' :: '\x7b' :: rest := by
  match s with
  | [] => simp [braces2] at h
  | [c] => simp [braces2] at h
  | c :: d :: r =>
    simp only [braces2] at h
    by_cases hc : (c = '\x7b' && d = '\x7b') = true
    · rw [if_pos hc] at h
      simp only [Option.some.injEq] at h
      simp only [Bool.and_eq_true, decide_eq_true_eq] at hc
      rw [hc.1, hc.2, h]
    · rw [if_neg hc] at h
      exact Option.noConfusion h

theorem braces2_none_of_head {s : List Char}
    (h : ∀ c, s.head? = some c → c ≠ '\x7b') : braces2 s = none := by
  match s with
  | [] => rfl
  | [c] => rfl
  | c :: d :: r =>
    have := h c (by simp)
    simp [braces2, this]

theorem braces2_none_snd {c d : Char} (r : List Char) (h : d ≠ '\x7b') :
    braces2 (c :: d :: r) = none := by
  simp [braces2, h]

theorem varHit_sound {rest p rest2 : List Char} (h : varHit rest = some (p, rest2)) :
    rest = p ++ '\x7d' :: '\x7d' :: rest2 ∧
      (∀ c ∈ p, isPyWordChar c = true ∨ c = '.') := by
  simp only [varHit] at h
  cases hpp : parsePath rest with
  | none => simp [hpp] at h
  | some pr =>
    obtain ⟨a, b⟩ := pr
    simp only [hpp] at h
    cases hst : stripPfx ['\x7d', '\x7d'] b with
    | none => simp [hst] at h
    | some r4 =>
      simp only [hst, Option.some.injEq, Prod.mk.injEq] at h
      obtain ⟨h1, h2⟩ := h
      have e1 : rest = a ++ b := parsePath_sound hpp
      have e2 : b = '\x7d' :: '\x7d' :: r4 := by simpa using stripPfx_eq hst
      subst h1
      subst h2
      constructor
      · rw [e1, e2]
      · intro c hc
        exact parsePath_chars hpp c hc

theorem varMatchAt_sound {s p rest2 : List Char}
    (h : varMatchAt s = some (p, rest2)) :
    s = '\x7b' :: '\x7b' :: (p ++ '\x7d' :: '\x7d' :: rest2) := by
  simp only [varMatchAt] at h
  cases hb : braces2 s with
  | none => simp [hb] at h
  | some rest =>
    simp only [hb, Option.some_bind] at h
    rw [braces2_sound hb, (varHit_sound h).1]

/-- A well-formed variable marker is matched at its own position. -/
theorem varMatchAt_mk {p : List Char} (hp : pathOkB p = true) (t : List Char) :
    varMatchAt ('\x7b' :: '\x7b' :: (p ++ '\x7d' :: '\x7d' :: t)) = some (p, t) := by
  have h3 : parsePath (p ++ '\x7d' :: '\x7d' :: t) = some (p, '\x7d' :: '\x7d' :: t) :=
    parsePath_path hp _ rbrace_not_word (by decide)
  have h4 : stripPfx ['\x7d', '\x7d'] ('\x7d' :: '\x7d' :: t) = some t := by
    have := stripPfx_append ['\x7d', '\x7d'] t
    simpa using this
  simp [varMatchAt, braces2, varHit, h3, h4]

theorem varGo_nil (res : List Char → Except Fault (Option Val)) (f : Nat) :
    varGo res f [] = .ok [] := by
  cases f <;> rfl

theorem varGo_step_hit {res : List Char → Except Fault (Option Val)} {c : Char}
    {r p rest2 : List Char} (f : Nat) (h : varMatchAt (c :: r) = some (p, rest2)) :
    varGo res (f + 1) (c :: r) = (do
      let v ← res p
      let y ← varGo res f rest2
      Except.ok (valueText v ++ y)) := by
  simp only [varGo, h]

theorem varGo_step_miss {res : List Char → Except Fault (Option Val)} {c : Char}
    {r : List Char} (f : Nat) (h : varMatchAt (c :: r) = none) :
    varGo res (f + 1) (c :: r) = (do
      let y ← varGo res f r
      Except.ok (c :: y)) := by
  simp only [varGo, h]

/-- A variable pass over text with no marker match anywhere copies it. -/
theorem varGo_inert {res : List Char → Except Fault (Option Val)} :
    ∀ (f : Nat) (s : List Char), (∀ i, varMatchAt (s.drop i) = none) →
      varGo res f s = .ok s := by
  intro f
  induction f with
  | zero => intro s _; cases s <;> rfl
  | succ f ih =>
    intro s hs
    cases s with
    | nil => rfl
    | cons c r =>
      have h0 := hs 0
      simp only [List.drop_zero] at h0
      rw [varGo_step_miss f h0, ih r (fun i => by simpa using hs (i + 1))]
      rfl

theorem varGo_irrel {res : List Char → Except Fault (Option Val)} :
    ∀ (n : Nat) (s : List Char) (f1 f2 : Nat), s.length ≤ n →
      s.length < f1 → s.length < f2 → varGo res f1 s = varGo res f2 s := by
  intro n
  induction n with
  | zero =>
    intro s f1 f2 h0 _ _
    have : s = [] := by
      cases s with
      | nil => rfl
      | cons c r => simp at h0
    subst this
    rw [varGo_nil, varGo_nil]
  | succ n ih =>
    intro s f1 f2 h0 h1 h2
    cases s with
    | nil => rw [varGo_nil, varGo_nil]
    | cons c r =>
      obtain ⟨g1, rfl⟩ : ∃ g, f1 = g + 1 := ⟨f1 - 1, by omega⟩
      obtain ⟨g2, rfl⟩ : ∃ g, f2 = g + 1 := ⟨f2 - 1, by omega⟩
      simp only [List.length_cons] at h0 h1 h2
      cases hm : varMatchAt (c :: r) with
      | none =>
        rw [varGo_step_miss g1 hm, varGo_step_miss g2 hm,
          ih r g1 g2 (by omega) (by omega) (by omega)]
      | some pr =>
        obtain ⟨p, rest2⟩ := pr
        have hlen : rest2.length + 4 ≤ r.length + 1 := by
          have := congrArg List.length (varMatchAt_sound hm)
          simp only [List.length_cons, List.length_append] at this
          omega
        rw [varGo_step_hit g1 hm, varGo_step_hit g2 hm]
        simp only [ih rest2 g1 g2 (by omega) (by omega) (by omega)]

theorem cleanHit_sound {rest rest2 : List Char} (h : cleanHit rest = some rest2) :
    ∃ w, ('\x7d' ∉ w) ∧ rest = w ++ '\x7d' :: '\x7d' :: rest2 := by
  simp only [cleanHit] at h
  refine ⟨(spanP (fun c => c != '\x7d') rest).1, ?_, ?_⟩
  · intro hm
    have := spanP_all (fun c => c != '\x7d') rest _ hm
    simp at this
  · have e1 := spanP_eq_append (fun c => c != '\x7d') rest
    have e2 : (spanP (fun c => c != '\x7d') rest).2 = '\x7d' :: '\x7d' :: rest2 := by
      simpa using stripPfx_eq h
    conv_lhs => rw [← e1]
    rw [e2]

theorem cleanMatchAt_sound {s rest2 : List Char} (h : cleanMatchAt s = some rest2) :
    ∃ w, ('\x7d' ∉ w) ∧ s = '\x7b' :: '\x7b' :: (w ++ '\x7d' :: '\x7d' :: rest2) := by
  simp only [cleanMatchAt] at h
  cases hb : braces2 s with
  | none => simp [hb] at h
  | some rest =>
    simp only [hb, Option.some_bind] at h
    obtain ⟨w, hw, e⟩ := cleanHit_sound h
    exact ⟨w, hw, by rw [braces2_sound hb, e]⟩

/-- A well-formed generic marker (no stray `\x7d` inside) is matched by the
cleanup pattern at its own position. -/
theorem cleanMatchAt_mk {w : List Char} (hw : '\x7d' ∉ w) (t : List Char) :
    cleanMatchAt ('\x7b' :: '\x7b' :: (w ++ '\x7d' :: '\x7d' :: t)) = some t := by
  have hspan : spanP (fun c => c != '\x7d') (w ++ '\x7d' :: '\x7d' :: t)
      = (w, '\x7d' :: '\x7d' :: t) := by
    apply spanP_prepend
    · intro c hc
      simp only [bne_iff_ne, ne_eq, decide_eq_true_eq]
      intro hcc
      exact hw (hcc ▸ hc)
    · intro c hc
      simp at hc
      subst hc
      decide
  have h4 : stripPfx ['\x7d', '\x7d'] ('\x7d' :: '\x7d' :: t) = some t := by
    have := stripPfx_append ['\x7d', '\x7d'] t
    simpa using this
  simp [cleanMatchAt, braces2, cleanHit, hspan, h4]

theorem cleanupGo_nil (f : Nat) : cleanupGo f [] = [] := by
  cases f <;> rfl

theorem cleanupGo_step_hit {c : Char} {r rest2 : List Char} (f : Nat)
    (h : cleanMatchAt (c :: r) = some rest2) :
    cleanupGo (f + 1) (c :: r) = cleanupGo f rest2 := by
  simp only [cleanupGo, h]

theorem cleanupGo_step_miss {c : Char} {r : List Char} (f : Nat)
    (h : cleanMatchAt (c :: r) = none) :
    cleanupGo (f + 1) (c :: r) = c :: cleanupGo f r := by
  simp only [cleanupGo, h]

theorem cleanupGo_irrel :
    ∀ (n : Nat) (s : List Char) (f1 f2 : Nat), s.length ≤ n →
      s.length < f1 → s.length < f2 → cleanupGo f1 s = cleanupGo f2 s := by
  intro n
  induction n with
  | zero =>
    intro s f1 f2 h0 _ _
    have : s = [] := by
      cases s with
      | nil => rfl
      | cons c r => simp at h0
    subst this
    rw [cleanupGo_nil, cleanupGo_nil]
  | succ n ih =>
    intro s f1 f2 h0 h1 h2
    cases s with
    | nil => rw [cleanupGo_nil, cleanupGo_nil]
    | cons c r =>
      obtain ⟨g1, rfl⟩ : ∃ g, f1 = g + 1 := ⟨f1 - 1, by omega⟩
      obtain ⟨g2, rfl⟩ : ∃ g, f2 = g + 1 := ⟨f2 - 1, by omega⟩
      simp only [List.length_cons] at h0 h1 h2
      cases hm : cleanMatchAt (c :: r) with
      | none =>
        rw [cleanupGo_step_miss g1 hm, cleanupGo_step_miss g2 hm,
          ih r g1 g2 (by omega) (by omega) (by omega)]
      | some rest2 =>
        have hlen : rest2.length + 4 ≤ r.length + 1 := by
          obtain ⟨w, -, e⟩ := cleanMatchAt_sound hm
          have := congrArg List.length e
          simp only [List.length_cons, List.length_append] at this
          omega
        rw [cleanupGo_step_hit g1 hm, cleanupGo_step_hit g2 hm,
          ih rest2 g1 g2 (by omega) (by omega) (by omega)]

/-- Unfolding rule of the cleanup pass at an unmatched position. -/
theorem cleanup_cons_miss {c : Char} {r : List Char}
    (h : cleanMatchAt (c :: r) = none) : cleanup (c :: r) = c :: cleanup r := by
  rw [cleanup, cleanup, List.length_cons, cleanupGo_step_miss _ h]

/-- Unfolding rule of the cleanup pass at a matched marker. -/
theorem cleanup_cons_hit {c : Char} {r rest2 : List Char}
    (h : cleanMatchAt (c :: r) = some rest2) : cleanup (c :: r) = cleanup rest2 := by
  rw [cleanup, cleanup, List.length_cons, cleanupGo_step_hit _ h]
  apply cleanupGo_irrel (r.length + 1) rest2
  · obtain ⟨w, -, e⟩ := cleanMatchAt_sound h
    have := congrArg List.length e
    simp only [List.length_cons, List.length_append] at this
    omega
  · obtain ⟨w, -, e⟩ := cleanMatchAt_sound h
    have := congrArg List.length e
    simp only [List.length_cons, List.length_append] at this
    omega
  · omega

/-! ### Failure conditions for the opener pattern -/

theorem parseOpen_none_head {kw s : List Char}
    (h : ∀ c, s.head? = some c → c ≠ '\x7b') : parseOpen kw s = none := by
  match s with
  | [] => rfl
  | c :: r =>
    have hc : ¬('\x7b' = c) := fun hx => h c (by simp) hx.symm
    simp [parseOpen, stripPfx, hc]

theorem parseOpen_none_snd {kw : List Char} {d : Char} (r : List Char)
    (h : d ≠ '\x7b') : parseOpen kw ('\x7b' :: d :: r) = none := by
  have hd : ¬('\x7b' = d) := fun hx => h hx.symm
  simp [parseOpen, stripPfx, hd]

/-! ### Lookup laws of the dict operations -/

theorem lookupCtx_map_set {k2 : List Char} {v : Val} {k : List Char} (hne : k2 ≠ k) :
    ∀ m : List (List Char × Val),
      lookupCtx k (m.map (fun e => if e.1 = k2 then (k2, v) else e)) = lookupCtx k m := by
  intro m
  induction m with
  | nil => rfl
  | cons e m ih =>
    obtain ⟨k3, v3⟩ := e
    by_cases h3 : k3 = k2
    · subst h3
      have hh : (if ((k3, v3) : List Char × Val).1 = k3 then (k3, v) else (k3, v3))
          = (k3, v) := by simp
      rw [List.map_cons, hh, lookupCtx, lookupCtx, if_neg hne, if_neg hne]
      exact ih
    · have hh : (if ((k3, v3) : List Char × Val).1 = k2 then (k2, v) else (k3, v3))
          = (k3, v3) := by simp [h3]
      rw [List.map_cons, hh, lookupCtx, lookupCtx]
      by_cases hk : k3 = k
      · rw [if_pos hk, if_pos hk]
      · rw [if_neg hk, if_neg hk]
        exact ih

theorem lookupCtx_map_set_self {k : List Char} {v : Val} :
    ∀ m : List (List Char × Val), m.any (fun e => e.1 = k) = true →
      lookupCtx k (m.map (fun e => if e.1 = k then (k, v) else e)) = some v := by
  intro m
  induction m with
  | nil => intro h; simp at h
  | cons e m ih =>
    intro h
    obtain ⟨k3, v3⟩ := e
    by_cases h3 : k3 = k
    · subst h3
      have hh : (if ((k3, v3) : List Char × Val).1 = k3 then (k3, v) else (k3, v3))
          = (k3, v) := by simp
      rw [List.map_cons, hh, lookupCtx, if_pos rfl]
    · have hh : (if ((k3, v3) : List Char × Val).1 = k then (k, v) else (k3, v3))
          = (k3, v3) := by simp [h3]
      rw [List.map_cons, hh, lookupCtx, if_neg h3]
      apply ih
      simp only [List.any_cons] at h
      rcases Bool.or_eq_true _ _ |>.mp h with hx | hx
      · simp at hx
        exact absurd hx h3
      · exact hx

theorem lookupCtx_append_single_other {k k2 : List Char} {v : Val} (hne : k2 ≠ k) :
    ∀ m : List (List Char × Val), lookupCtx k (m ++ [(k2, v)]) = lookupCtx k m := by
  intro m
  induction m with
  | nil => simp [lookupCtx, hne]
  | cons e m ih =>
    obtain ⟨k3, v3⟩ := e
    rw [List.cons_append, lookupCtx, lookupCtx]
    by_cases hk : k3 = k
    · rw [if_pos hk, if_pos hk]
    · rw [if_neg hk, if_neg hk]
      exact ih

theorem lookupCtx_append_single_self {k : List Char} {v : Val} :
    ∀ m : List (List Char × Val), m.any (fun e => e.1 = k) = false →
      lookupCtx k (m ++ [(k, v)]) = some v := by
  intro m
  induction m with
  | nil => simp [lookupCtx]
  | cons e m ih =>
    intro h
    obtain ⟨k3, v3⟩ := e
    simp only [List.any_cons, Bool.or_eq_false_iff] at h
    rw [List.cons_append, lookupCtx, if_neg (of_decide_eq_false h.1)]
    exact ih h.2

/-- The single lookup law of `setKey`: storing under `k2` makes `k2` resolve
to the new value and leaves every other key unchanged. -/
theorem lookup_setKey (m : List (List Char × Val)) (k k2 : List Char) (v : Val) :
    lookupCtx k (setKey m k2 v) = if k2 = k then some v else lookupCtx k m := by
  by_cases h2 : k2 = k
  · subst h2
    rw [if_pos rfl]
    by_cases hany : m.any (fun e => e.1 = k2) = true
    · rw [setKey, if_pos hany]
      exact lookupCtx_map_set_self m hany
    · rw [setKey, if_neg hany]
      exact lookupCtx_append_single_self m ((Bool.not_eq_true _) ▸ hany)
  · rw [if_neg h2]
    by_cases hany : m.any (fun e => e.1 = k2) = true
    · rw [setKey, if_pos hany]
      exact lookupCtx_map_set h2 m
    · rw [setKey, if_neg hany]
      exact lookupCtx_append_single_other h2 m

theorem dictUpd_cons (m : List (List Char × Val)) (e : List Char × Val)
    (kvs : List (List Char × Val)) :
    dictUpd m (e :: kvs) = dictUpd (setKey m e.1 e.2) kvs := rfl

/-- Updating with entries whose keys all differ from `k` leaves `k`
unchanged. -/
theorem lookup_dictUpd_notin {k : List Char} :
    ∀ (kvs m : List (List Char × Val)), (∀ e ∈ kvs, e.1 ≠ k) →
      lookupCtx k (dictUpd m kvs) = lookupCtx k m := by
  intro kvs
  induction kvs with
  | nil => intro m _; rfl
  | cons e kvs ih =>
    intro m h
    rw [dictUpd_cons, ih (setKey m e.1 e.2) (fun x hx => h x (by simp [hx])),
      lookup_setKey, if_neg (h e (by simp))]

/-- Updating with a key-unique entry list makes each of its keys resolve to
its own value, whatever the base dict held. -/
theorem lookup_dictUpd_found {k : List Char} {v : Val} :
    ∀ (kvs m : List (List Char × Val)), (kvs.map Prod.fst).Nodup →
      lookupCtx k kvs = some v → lookupCtx k (dictUpd m kvs) = some v := by
  intro kvs
  induction kvs with
  | nil => intro m _ h; simp [lookupCtx] at h
  | cons e kvs ih =>
    intro m hnd h
    obtain ⟨k2, v2⟩ := e
    simp only [List.map_cons, List.nodup_cons] at hnd
    by_cases h2 : k2 = k
    · subst h2
      rw [lookupCtx, if_pos rfl] at h
      simp only [Option.some.injEq] at h
      subst h
      rw [dictUpd_cons]
      rw [lookup_dictUpd_notin kvs _ (fun x hx hk => by
        exact hnd.1 (hk ▸ List.mem_map_of_mem Prod.fst hx))]
      rw [lookup_setKey, if_pos rfl]
    · rw [lookupCtx, if_neg h2] at h
      rw [dictUpd_cons]
      exact ih _ hnd.2 h

/-! ### Path splitting -/

/-- Join path segments with literal dots (left inverse of `splitDots` on
dot-free segments). -/
def joinDots : List (List Char) → List Char
  | [] => []
  | [s] => s
  | s :: r => s ++ '.' :: joinDots r

theorem splitDots_nodot {s : List Char} (h : '.' ∉ s) : splitDots s = [s] := by
  induction s with
  | nil => rfl
  | cons c r ih =>
    have hc : ¬(c = '.') := fun hx => h (by simp [hx])
    rw [splitDots, if_neg hc, ih (fun hx => h (by simp [hx]))]

theorem splitDots_append_dot {s : List Char} (t : List Char) (h : '.' ∉ s) :
    splitDots (s ++ '.' :: t) = s :: splitDots t := by
  induction s with
  | nil => simp [splitDots]
  | cons c r ih =>
    have hc : ¬(c = '.') := fun hx => h (by simp [hx])
    rw [List.cons_append, splitDots, if_neg hc,
      ih (fun hx => h (by simp [hx]))]

/-- Splitting the dot-joined form of nonempty dot-free segments recovers the
segments. -/
theorem splitDots_joinDots :
    ∀ segs : List (List Char), segs ≠ [] → (∀ s ∈ segs, '.' ∉ s) →
      splitDots (joinDots segs) = segs := by
  intro segs
  induction segs with
  | nil => intro h _; exact absurd rfl h
  | cons s segs ih =>
    intro _ hall
    cases segs with
    | nil => exact splitDots_nodot (hall s (by simp))
    | cons s2 segs2 =>
      rw [show joinDots (s :: s2 :: segs2) = s ++ '.' :: joinDots (s2 :: segs2) from rfl]
      rw [splitDots_append_dot _ (hall s (by simp)),
        ih (by simp) (fun x hx => hall x (by simp [hx]))]

/-! ### Truthiness duality and monad helpers -/

/-- The `unless` condition of the source is the exact negation of the `if`
condition, over every representable value (including absent). -/
theorem unlessKeeps_not_isTruthy : ∀ v, unlessKeeps v = !isTruthy v := by
  intro v
  match v with
  | none => rfl
  | some .null => rfl
  | some (.bool b) => cases b <;> rfl
  | some (.str s) => simp [unlessKeeps, isTruthy]
  | some (.list xs) => simp [unlessKeeps, isTruthy]
  | some (.dict m) => simp [unlessKeeps, isTruthy]
  | some (.int n) => by_cases hn : n = 0 <;> simp [unlessKeeps, isTruthy, bne, beq_iff_eq, hn]

theorem bind_ok_nil (e : Except Fault (List Char)) :
    (e >>= fun x => Except.ok (x ++ [])) = e := by
  cases e <;> simp

/-! ### Pass-level lemmas -/

/-- A pass over a text that consists of exactly one well-formed block
produces exactly the replacement of that block. -/
theorem subBlocksE_block {kw : List Char}
    {repl : List Char → List Char → Except Fault (List Char)} {p b : List Char}
    (hp : pathOkB p = true) (hb : noPremClose (closeTagOf kw) b = true) :
    subBlocksE kw repl (mkOpen kw p ++ b ++ closeTagOf kw) = repl p b := by
  have e : mkOpen kw p ++ b ++ closeTagOf kw
      = mkOpen kw p ++ (b ++ (closeTagOf kw ++ [])) := by simp
  rw [e, subBlocksE, subGo_block [] _ hp hb]
  simp only [subGo_nil]
  cases hr : repl p b <;> simp

/-- General form with a continuation: the first block is replaced and the
scan continues after its closing marker. -/
theorem subBlocksE_block_rest {kw : List Char}
    {repl : List Char → List Char → Except Fault (List Char)} {p b : List Char}
    (rest : List Char) (hp : pathOkB p = true)
    (hb : noPremClose (closeTagOf kw) b = true) :
    subBlocksE kw repl (mkOpen kw p ++ b ++ closeTagOf kw ++ rest) = (do
      let x ← repl p b
      let y ← subBlocksE kw repl rest
      Except.ok (x ++ y)) := by
  have e : mkOpen kw p ++ b ++ closeTagOf kw ++ rest
      = mkOpen kw p ++ (b ++ (closeTagOf kw ++ rest)) := by simp
  rw [e, subBlocksE, subGo_block rest _ hp hb]
  have hirr := @subGo_irrel kw repl rest.length rest
    (mkOpen kw p ++ (b ++ (closeTagOf kw ++ rest))).length (rest.length + 1)
    le_rfl
    (by simp only [List.length_append, mkOpen, closeTagOf, List.length_cons]; omega)
    (by omega)
  simp only [hirr]
  rfl

/-- Reduce an inertness obligation to positions inside the text. -/
theorem scanInert_of_bounded {kw s : List Char}
    (h : ∀ i, i < s.length → parseOpen kw (s.drop i) = none) : scanInert kw s := by
  intro i p after hpo
  by_cases hi : i < s.length
  · rw [h i hi] at hpo
    exact Option.noConfusion hpo
  · rw [List.drop_eq_nil_of_le (by omega)] at hpo
    exact Option.noConfusion hpo

theorem parseOpen_none_mem {kw t : List Char} (h : ∀ c ∈ t, c ≠ '\x7b') :
    parseOpen kw t = none :=
  parseOpen_none_head (fun c hc => h c (headq_mem hc))

theorem braces2_none_mem {t : List Char} (h : ∀ c ∈ t, c ≠ '\x7b') :
    braces2 t = none :=
  braces2_none_of_head (fun c hc => h c (headq_mem hc))

theorem cleanMatchAt_none_head {c : Char} (r : List Char) (h : c ≠ '\x7b') :
    cleanMatchAt (c :: r) = none := by
  rw [cleanMatchAt, braces2_none_of_head (fun d hd => by simp at hd; exact hd ▸ h)]
  rfl

theorem cleanup_nil : cleanup [] = [] := rfl

/-- The cleanup scan copies a brace-free prefix unchanged. -/
theorem cleanup_append_braceFree :
    ∀ (a t : List Char), (∀ c ∈ a, c ≠ '\x7b') → cleanup (a ++ t) = a ++ cleanup t := by
  intro a
  induction a with
  | nil => intro t _; simp
  | cons c a ih =>
    intro t h
    rw [List.cons_append, cleanup_cons_miss (cleanMatchAt_none_head _ (h c (by simp))),
      ih t (fun x hx => h x (by simp [hx])), List.cons_append]

/-- The cleanup scan removes a leading well-formed marker entirely. -/
theorem cleanup_marker_head {w : List Char} (t : List Char) (hw : '\x7d' ∉ w) :
    cleanup ('\x7b' :: '\x7b' :: (w ++ '\x7d' :: '\x7d' :: t)) = cleanup t :=
  cleanup_cons_hit (cleanMatchAt_mk hw t)

/-- Boolean substring occurrence test. -/
def containsSub (pat s : List Char) : Bool :=
  (List.range (s.length + 1)).any (fun i => (stripPfx pat (s.drop i)).isSome)

theorem containsSub_false_of_head {c0 : Char} {pat s : List Char}
    (h : ∀ c ∈ s, c ≠ c0) : containsSub (c0 :: pat) s = false := by
  rw [containsSub]
  rw [List.any_eq_false]
  intro i _
  cases hd : s.drop i with
  | nil => simp [stripPfx]
  | cons d r =>
    have hm : d ∈ s := List.drop_subset i s (by rw [hd]; simp)
    have : ¬(c0 = d) := fun hx => h d hm hx.symm
    simp [stripPfx, this]

/-- Characters of a matched path never include a closing brace. -/
theorem pathChars_no_rbrace {p : List Char}
    (h : ∀ c ∈ p, isPyWordChar c = true ∨ c = '.') : '\x7d' ∉ p := by
  intro hm
  rcases h _ hm with hx | hx
  · rw [rbrace_not_word] at hx
    exact Bool.noConfusion hx
  · exact absurd hx (by decide)

/-- A single marker `\x7b\x7bW\x7d\x7d` whose interior contains no brace
never completes a block pattern: any opener parsed at position 0 consumes the
whole text (so no closing marker can follow), and no later position starts
with the opener braces. -/
theorem scanInert_marker {kw w : List Char}
    (hb : ∀ c ∈ w, c ≠ '\x7b' ∧ c ≠ '\x7d') :
    scanInert kw ('\x7b' :: '\x7b' :: (w ++ ['\x7d', '\x7d'])) := by
  intro i p after hpo
  match i with
  | 0 =>
    simp only [List.drop_zero] at hpo
    obtain ⟨sp, hsp, hspc, heq⟩ := parseOpen_sound hpo
    have heq2 : ('#' :: (kw ++ (sp ++ p))) ++ '\x7d' :: '\x7d' :: after
        = w ++ ['\x7d', '\x7d'] := by
      simp only [List.cons_append, List.append_assoc] at heq
      injection heq with h1 heq
      injection heq with h2 heq
      rw [heq]
      simp [List.append_assoc]
    have hafter : after = [] :=
      append_rr_cancel (fun hm => (hb _ hm).2 rfl) heq2
    rw [hafter]
    rfl
  | 1 =>
    have hd : ('\x7b' :: '\x7b' :: (w ++ ['\x7d', '\x7d'])).drop 1
        = '\x7b' :: (w ++ ['\x7d', '\x7d']) := rfl
    rw [hd] at hpo
    match w, hb with
    | [], _ =>
      simp only [List.nil_append] at hpo
      rw [parseOpen_none_snd _ (by decide)] at hpo
      exact Option.noConfusion hpo
    | c :: w2, hb =>
      simp only [List.cons_append] at hpo
      rw [parseOpen_none_snd _ (hb c (by simp)).1] at hpo
      exact Option.noConfusion hpo
  | (i + 2) =>
    have hd : ('\x7b' :: '\x7b' :: (w ++ ['\x7d', '\x7d'])).drop (i + 2)
        = (w ++ ['\x7d', '\x7d']).drop i := rfl
    rw [hd] at hpo
    have hno : parseOpen kw ((w ++ ['\x7d', '\x7d']).drop i) = none := by
      apply parseOpen_none_mem
      intro c hc
      have hcm : c ∈ w ++ ['\x7d', '\x7d'] := List.drop_subset i _ hc
      rcases List.mem_append.mp hcm with hcw | hcb
      · exact (hb c hcw).1
      · simp at hcb
        rw [hcb]
        decide
    rw [hno] at hpo
    exact Option.noConfusion hpo

/-- A single marker whose interior contains no brace and is not a valid path
is not matched by the simple-variable pattern at any position. -/
theorem varInert_marker {w : List Char}
    (hb : ∀ c ∈ w, c ≠ '\x7b' ∧ c ≠ '\x7d') (hw : pathOkB w = false) :
    ∀ i, varMatchAt (('\x7b' :: '\x7b' :: (w ++ ['\x7d', '\x7d'])).drop i) = none := by
  intro i
  match i with
  | 0 =>
    simp only [List.drop_zero]
    rw [varMatchAt]
    have hb2 : braces2 ('\x7b' :: '\x7b' :: (w ++ ['\x7d', '\x7d']))
        = some (w ++ ['\x7d', '\x7d']) := by simp [braces2]
    rw [hb2, Option.some_bind]
    cases hpp : parsePath (w ++ ['\x7d', '\x7d']) with
    | none => simp [varHit, hpp]
    | some pr =>
      obtain ⟨a, b⟩ := pr
      cases hst : stripPfx ['\x7d', '\x7d'] b with
      | none => simp [varHit, hpp, hst]
      | some r4 =>
        exfalso
        have e2 : b = '\x7d' :: '\x7d' :: r4 := by simpa using stripPfx_eq hst
        have e1 : w ++ ['\x7d', '\x7d'] = a ++ b := parsePath_sound hpp
        rw [e2] at e1
        have hna : '\x7d' ∉ a := pathChars_no_rbrace (parsePath_chars hpp)
        have hnw : '\x7d' ∉ w := fun hm => (hb _ hm).2 rfl
        obtain ⟨haw, hr4⟩ := rrfree_cancel hna hnw e1.symm
        have hr4e : r4 = [] := by injection hr4
        subst haw
        subst hr4e
        have hpp2 : parsePath (a ++ '\x7d' :: ('\x7d' :: []))
            = some (a, '\x7d' :: ('\x7d' :: [])) := by
          rw [e2] at hpp
          exact hpp
        exact absurd (parsePath_rev _ rbrace_not_word (by decide) hpp2) (by simp [hw])
  | 1 =>
    have hd : ('\x7b' :: '\x7b' :: (w ++ ['\x7d', '\x7d'])).drop 1
        = '\x7b' :: (w ++ ['\x7d', '\x7d']) := rfl
    rw [hd, varMatchAt]
    have hno : braces2 ('\x7b' :: (w ++ ['\x7d', '\x7d'])) = none := by
      match w, hb with
      | [], _ =>
        simp only [List.nil_append]
        exact braces2_none_snd _ (by decide)
      | c :: w2, hb =>
        simp only [List.cons_append]
        exact braces2_none_snd _ (hb c (by simp)).1
    rw [hno]
    rfl
  | (i + 2) =>
    have hd : ('\x7b' :: '\x7b' :: (w ++ ['\x7d', '\x7d'])).drop (i + 2)
        = (w ++ ['\x7d', '\x7d']).drop i := rfl
    rw [hd, varMatchAt]
    have hno : braces2 ((w ++ ['\x7d', '\x7d']).drop i) = none := by
      apply braces2_none_mem
      intro c hc
      have hcm : c ∈ w ++ ['\x7d', '\x7d'] := List.drop_subset i _ hc
      rcases List.mem_append.mp hcm with hcw | hcb
      · exact (hb c hcw).1
      · simp at hcb
        rw [hcb]
        decide
    rw [hno]
    rfl

/-! ### Claim theorems -/

/-- A fault-injecting resolver, used to witness the catch-and-fallback path
of the top-level renderer. -/
def injRes : Res := fun _ _ => .error .injected

/-- C1: the top-level renderer never lets a fault escape: for every resolver
(including fault-injecting ones), every recursion budget, template and
context, it returns a plain string; whenever any fault escapes
`process_template` (an injected resolver fault or the recursion limit), the
result is the original template with the cleanup pass applied directly to
it, and on success it is the cleanup of the processed text.  A zero budget
(the modelled RecursionError) always takes the fallback. -/
theorem c1_render_fallback :
    ∀ (R : Res) (n : Nat) (ctx : Ctx) (t : List Char),
      (∀ e : Fault, processTemplateR R n ctx t = .error e →
          renderCoreR R n ctx t = cleanup t)
      ∧ (∀ out : List Char, processTemplateR R n ctx t = .ok out →
          renderCoreR R n ctx t = cleanup out)
      ∧ renderCoreR R 0 ctx t = cleanup t := by
  intro R n ctx t
  refine ⟨fun e he => ?_, fun out ho => ?_, ?_⟩
  · simp only [renderCoreR, he]
  · simp only [renderCoreR, ho]
  · rfl

/-- Witness for C1: with an injected resolver fault, rendering a variable
marker falls back to the cleanup of the original template. -/
theorem c1_render_fallback_witness :
    renderCoreR injRes 5 [] ("\x7b\x7bx\x7d\x7d".data)
      = cleanup ("\x7b\x7bx\x7d\x7d".data) :=
  (c1_render_fallback injRes 5 [] ("\x7b\x7bx\x7d\x7d".data)).1 .injected (by rfl)

/-- C3: a conditional block whose body holds no closing marker of its own
kind expands to the recursively processed body exactly when the resolved
condition is truthy (for `unless`, exactly when it is falsy, the `unless`
condition being the exact negation of the `if` condition), and to empty text
otherwise; truthiness is: booleans themselves, emptiness for strings, lists
and dicts, non-zeroness for numbers, and false for absent and null.  The
spec's concrete conditional examples render accordingly. -/
theorem c3_conditionals :
    (∀ (pt : Ctx → List Char → Except Fault (List Char)) (ctx : Ctx) (p b : List Char),
        pathOkB p = true → noPremClose (closeTagOf ifKw) b = true →
        ifPass realRes pt ctx (mkOpen ifKw p ++ b ++ closeTagOf ifKw)
          = if isTruthy (resolveValue p ctx) then pt ctx b else .ok [])
    ∧ (∀ (pt : Ctx → List Char → Except Fault (List Char)) (ctx : Ctx) (p b : List Char),
        pathOkB p = true → noPremClose (closeTagOf unlessKw) b = true →
        unlessPass realRes pt ctx (mkOpen unlessKw p ++ b ++ closeTagOf unlessKw)
          = if isTruthy (resolveValue p ctx) then .ok [] else pt ctx b)
    ∧ (∀ v, unlessKeeps v = !isTruthy v)
    ∧ (isTruthy none = false ∧ isTruthy (some .null) = false
        ∧ (∀ b, isTruthy (some (.bool b)) = b)
        ∧ (∀ s, isTruthy (some (.str s)) = !s.isEmpty)
        ∧ (∀ xs, isTruthy (some (.list xs)) = !xs.isEmpty)
        ∧ (∀ m, isTruthy (some (.dict m)) = !m.isEmpty)
        ∧ (∀ n : Int, isTruthy (some (.int n)) = (n != 0)))
    ∧ render "\x7b\x7b#if x\x7d\x7dA\x7b\x7b/if\x7d\x7d" [("x".data, Val.bool true)] = "A"
    ∧ render "\x7b\x7b#if x\x7d\x7dA\x7b\x7b/if\x7d\x7d" [("x".data, Val.bool false)] = ""
    ∧ render "\x7b\x7b#if x\x7d\x7dA\x7b\x7b/if\x7d\x7d" [] = ""
    ∧ render "\x7b\x7b#unless x\x7d\x7dA\x7b\x7b/unless\x7d\x7d" [("x".data, Val.int 0)] = "A"
    ∧ render "\x7b\x7b#unless x\x7d\x7dA\x7b\x7b/unless\x7d\x7d" [("x".data, Val.int 1)] = "" := by
  refine ⟨?_, ?_, unlessKeeps_not_isTruthy,
    ⟨rfl, rfl, fun b => rfl, fun s => rfl, fun xs => rfl, fun m => rfl, fun n => rfl⟩,
    by decide, by decide, by decide, by decide, by decide⟩
  · intro pt ctx p b hp hb
    simp only [ifPass]
    rw [subBlocksE_block hp hb]
    simp [realRes]
  · intro pt ctx p b hp hb
    simp only [unlessPass]
    rw [subBlocksE_block hp hb]
    simp only [realRes, ok_bind, unlessKeeps_not_isTruthy]
    cases isTruthy (resolveValue p ctx) <;> simp

/-- Witness for C3: the `if` clause applied to the block `\x7b\x7b#if
x\x7d\x7dA\x7b\x7b/if\x7d\x7d` with a truthy condition. -/
theorem c3_conditionals_witness :
    ifPass realRes (fun _ s => .ok s) [("x".data, Val.bool true)]
        (mkOpen ifKw "x".data ++ "A".data ++ closeTagOf ifKw)
      = if isTruthy (resolveValue "x".data [("x".data, Val.bool true)])
          then Except.ok "A".data else .ok [] :=
  c3_conditionals.1 (fun _ s => .ok s) [("x".data, Val.bool true)] "x".data "A".data
    (by decide) (by decide)

/-- C5: a simple marker `\x7b\x7bPATH\x7d\x7d` is replaced by the text of
its resolved value: empty for absent and null, the lowercase words for
booleans, the decimal form for numbers, and the HTML-escaped text for
strings, where the escaping replaces `&` first, then `<`, then `>`, then
`"`, in that order; the spec's escaping example renders accordingly. -/
theorem c5_variables :
    (∀ (ctx : Ctx) (p : List Char), pathOkB p = true →
        replaceSimpleVariables realRes ctx ('\x7b' :: '\x7b' :: (p ++ ['\x7d', '\x7d']))
          = .ok (valueText (resolveValue p ctx)))
    ∧ valueText none = [] ∧ valueText (some .null) = []
    ∧ valueText (some (.bool true)) = "true".data
    ∧ valueText (some (.bool false)) = "false".data
    ∧ (∀ n : Int, valueText (some (.int n)) = (toString n).data)
    ∧ (∀ s, valueText (some (.str s)) = htmlEscape s)
    ∧ (∀ s, htmlEscape s =
        replaceChar '\x22' "&quot;".data (replaceChar '>' "&gt;".data
          (replaceChar '<' "&lt;".data (replaceChar '&' "&amp;".data s))))
    ∧ htmlEscape "<a&\x22b>".data = "&lt;a&amp;&quot;b&gt;".data
    ∧ render "\x7b\x7bt\x7d\x7d" [("t".data, Val.str "<a&\x22b>".data)]
        = "&lt;a&amp;&quot;b&gt;" := by
  refine ⟨?_, rfl, rfl, rfl, rfl, fun n => rfl, fun s => rfl, fun s => rfl,
    by decide, by decide⟩
  intro ctx p hp
  rw [replaceSimpleVariables]
  rw [varGo_step_hit _ (varMatchAt_mk hp [])]
  rw [varGo_nil]
  simp [realRes]

/-- Witness for C5: the marker `\x7b\x7bt\x7d\x7d` substituted against a
context holding a string. -/
theorem c5_variables_witness :
    replaceSimpleVariables realRes [("t".data, Val.str "<a&\x22b>".data)]
        ('\x7b' :: '\x7b' :: ("t".data ++ ['\x7d', '\x7d']))
      = .ok (valueText (resolveValue "t".data [("t".data, Val.str "<a&\x22b>".data)])) :=
  c5_variables.1 [("t".data, Val.str "<a&\x22b>".data)] "t".data (by decide)

/-- C6: path resolution splits on dots and walks nested dicts segment by
segment, failing to absent (never an error) as soon as the current value is
not a dict holding the exact key; absent and explicit null both substitute
as empty text and are both falsy; the spec's dotted examples render
accordingly. -/
theorem c6_resolution :
    (∀ (segs : List (List Char)) (ctx : Ctx), segs ≠ [] → (∀ s ∈ segs, '.' ∉ s) →
        resolveValue (joinDots segs) ctx = resolveGo segs (.dict ctx))
    ∧ (∀ (k : List Char) (ks : List (List Char)) (v : Val),
        (∀ m, v ≠ .dict m) → resolveGo (k :: ks) v = none)
    ∧ (∀ (k : List Char) (ks : List (List Char)) (m : List (List Char × Val)),
        lookupCtx k m = none → resolveGo (k :: ks) (.dict m) = none)
    ∧ (∀ (k : List Char) (ks : List (List Char)) (m : List (List Char × Val)) (v2 : Val),
        lookupCtx k m = some v2 → resolveGo (k :: ks) (.dict m) = resolveGo ks v2)
    ∧ valueText none = [] ∧ valueText (some .null) = []
    ∧ isTruthy none = false ∧ isTruthy (some .null) = false
    ∧ render "\x7b\x7ba.b.c\x7d\x7d"
        [("a".data, Val.dict [("b".data, Val.dict [("c".data, Val.str "x".data)])])] = "x"
    ∧ render "\x7b\x7ba.b.c\x7d\x7d"
        [("a".data, Val.dict [("z".data, Val.dict [("c".data, Val.str "x".data)])])] = "" := by
  refine ⟨?_, ?_, ?_, ?_, rfl, rfl, rfl, rfl, by decide, by decide⟩
  · intro segs ctx hne hnd
    rw [resolveValue, splitDots_joinDots segs hne hnd]
  · intro k ks v hv
    match v, hv with
    | .null, _ => rfl
    | .bool b, _ => rfl
    | .int n, _ => rfl
    | .str s, _ => rfl
    | .list xs, _ => rfl
    | .dict m, hv => exact absurd rfl (hv m)
  · intro k ks m h
    simp [resolveGo, h]
  · intro k ks m v2 h
    simp [resolveGo, h]

/-- Witness for C6: resolving the joined path `a.b.c` walks the segments. -/
theorem c6_resolution_witness :
    resolveValue (joinDots ["a".data, "b".data, "c".data])
        [("a".data, Val.dict [("b".data, Val.dict [("c".data, Val.str "x".data)])])]
      = resolveGo ["a".data, "b".data, "c".data]
          (.dict [("a".data, Val.dict [("b".data, Val.dict [("c".data, Val.str "x".data)])])]) :=
  c6_resolution.1 ["a".data, "b".data, "c".data]
    [("a".data, Val.dict [("b".data, Val.dict [("c".data, Val.str "x".data)])])]
    (by decide) (by decide)

theorem dictUpd_pair_cons (m : List (List Char × Val)) (k : List Char) (v : Val)
    (kvs : List (List Char × Val)) :
    dictUpd m ((k, v) :: kvs) = dictUpd (setKey m k v) kvs := rfl

theorem dictUpd_nil (m : List (List Char × Val)) : dictUpd m [] = m := rfl

/-- C10: the four loop bindings are stored into the per-item scope before
the item's own entries are merged, so an item key named `this`, `index`,
`first` or `last` (or any other key) shadows the loop binding; when the item
lacks the key, the loop binding itself is visible.  The shadowing is
observable in a rendered loop. -/
theorem c10_shadowing :
    (∀ (ctx : Ctx) (m : List (List Char × Val)) (i len : Nat) (k : List Char) (v : Val),
        (m.map Prod.fst).Nodup → lookupCtx k m = some v →
        lookupCtx k (itemCtx ctx (.dict m) i len) = some v)
    ∧ (∀ (ctx : Ctx) (m : List (List Char × Val)) (i len : Nat),
        (∀ e ∈ m, e.1 ≠ "this".data) →
        lookupCtx "this".data (itemCtx ctx (.dict m) i len) = some (.dict m))
    ∧ render "\x7b\x7b#each l\x7d\x7d\x7b\x7bthis\x7d\x7d-\x7b\x7bindex\x7d\x7d\x7b\x7b/each\x7d\x7d"
        [("l".data, Val.list [Val.dict [("this".data, Val.str "A".data),
          ("index".data, Val.int 7)]])]
        = "A-7" := by
  refine ⟨?_, ?_, by decide⟩
  · intro ctx m i len k v hnd hk
    simp only [itemCtx]
    exact lookup_dictUpd_found m _ hnd hk
  · intro ctx m i len h
    simp only [itemCtx]
    rw [lookup_dictUpd_notin m _ h]
    rw [dictUpd_pair_cons, dictUpd_pair_cons, dictUpd_pair_cons, dictUpd_pair_cons,
      dictUpd_nil]
    rw [lookup_setKey, if_neg (by decide), lookup_setKey, if_neg (by decide),
      lookup_setKey, if_neg (by decide), lookup_setKey, if_pos rfl]

/-- Witness for C10: an item holding its own `this` entry shadows the loop
binding in the per-item scope. -/
theorem c10_shadowing_witness :
    lookupCtx "this".data
        (itemCtx [("l".data, Val.int 1)]
          (.dict [("this".data, Val.str "A".data)]) 0 1)
      = some (Val.str "A".data) :=
  c10_shadowing.1 [("l".data, Val.int 1)] [("this".data, Val.str "A".data)] 0 1
    "this".data (Val.str "A".data) (by simp) (by rfl)

set_option maxRecDepth 40000 in
/-- C2: the spec's end-to-end scenario, for both context variants. -/
theorem c2_end_to_end :
    render "<div>\x7b\x7b#if has_animes\x7d\x7d<h1>\x7b\x7bdate\x7d\x7d</h1>\x7b\x7b#each other_animes\x7d\x7d<p>\x7b\x7bthis.title\x7d\x7d - \x7b\x7bthis.score\x7d\x7d</p>\x7b\x7b/each\x7d\x7d\x7b\x7b/if\x7d\x7d\x7b\x7b#unless has_animes\x7d\x7d<p>No anime today</p>\x7b\x7b/unless\x7d\x7d</div>"
        [("has_animes".data, Val.bool true), ("date".data, Val.str "2024-01-01".data),
         ("other_animes".data, Val.list
           [Val.dict [("title".data, Val.str "A".data), ("score".data, Val.str "8.0".data)],
            Val.dict [("title".data, Val.str "B".data), ("score".data, Val.str "7.5".data)]])]
      = "<div><h1>2024-01-01</h1><p>A - 8.0</p><p>B - 7.5</p></div>"
    ∧ render "<div>\x7b\x7b#if has_animes\x7d\x7d<h1>\x7b\x7bdate\x7d\x7d</h1>\x7b\x7b#each other_animes\x7d\x7d<p>\x7b\x7bthis.title\x7d\x7d - \x7b\x7bthis.score\x7d\x7d</p>\x7b\x7b/each\x7d\x7d\x7b\x7b/if\x7d\x7d\x7b\x7b#unless has_animes\x7d\x7d<p>No anime today</p>\x7b\x7b/unless\x7d\x7d</div>"
        [("has_animes".data, Val.bool false)]
      = "<div><p>No anime today</p></div>" := by
  constructor
  · decide
  · decide

/-- A helper for C4 and C10: the values of the four loop bindings stored by
`each_replacer` before the item itself is merged. -/
theorem lookup_loopBindings (ctx : Ctx) (item : Val) (i len : Nat) :
    lookupCtx "this".data (dictUpd ctx
        [("this".data, item), ("index".data, .int i),
         ("first".data, .bool (i == 0)), ("last".data, .bool (i == len - 1))])
      = some item
    ∧ lookupCtx "index".data (dictUpd ctx
        [("this".data, item), ("index".data, .int i),
         ("first".data, .bool (i == 0)), ("last".data, .bool (i == len - 1))])
      = some (.int i)
    ∧ lookupCtx "first".data (dictUpd ctx
        [("this".data, item), ("index".data, .int i),
         ("first".data, .bool (i == 0)), ("last".data, .bool (i == len - 1))])
      = some (.bool (i == 0))
    ∧ lookupCtx "last".data (dictUpd ctx
        [("this".data, item), ("index".data, .int i),
         ("first".data, .bool (i == 0)), ("last".data, .bool (i == len - 1))])
      = some (.bool (i == len - 1)) := by
  rw [dictUpd_pair_cons, dictUpd_pair_cons, dictUpd_pair_cons, dictUpd_pair_cons,
    dictUpd_nil]
  refine ⟨?_, ?_, ?_, ?_⟩
  · rw [lookup_setKey, if_neg (by decide), lookup_setKey, if_neg (by decide),
      lookup_setKey, if_neg (by decide), lookup_setKey, if_pos rfl]
  · rw [lookup_setKey, if_neg (by decide), lookup_setKey, if_neg (by decide),
      lookup_setKey, if_pos rfl]
  · rw [lookup_setKey, if_neg (by decide), lookup_setKey, if_pos rfl]
  · rw [lookup_setKey, if_pos rfl]

/-- A helper for C4: looking up a key distinct from the four loop bindings
in the pre-merge scope falls through to the enclosing context. -/
theorem lookup_loopBindings_other (ctx : Ctx) (item : Val) (i len : Nat)
    (k : List Char) (h1 : k ≠ "this".data) (h2 : k ≠ "index".data)
    (h3 : k ≠ "first".data) (h4 : k ≠ "last".data) :
    lookupCtx k (dictUpd ctx
        [("this".data, item), ("index".data, .int i),
         ("first".data, .bool (i == 0)), ("last".data, .bool (i == len - 1))])
      = lookupCtx k ctx := by
  rw [dictUpd_pair_cons, dictUpd_pair_cons, dictUpd_pair_cons, dictUpd_pair_cons,
    dictUpd_nil]
  rw [lookup_setKey, if_neg (fun hx => h4 hx.symm),
    lookup_setKey, if_neg (fun hx => h3 hx.symm),
    lookup_setKey, if_neg (fun hx => h2 hx.symm),
    lookup_setKey, if_neg (fun hx => h1 hx.symm)]

/-- C4: an `each` block whose body holds no closing marker of its own kind
expands to empty text unless the path resolves to a non-empty list, and
otherwise to the concatenation, in list order with no separator, of the body
processed once per item against the per-item scope; that scope carries the
loop bindings `this`, `index`, `first`, `last` over a copy of the enclosing
context, with a dict item's own entries merged in on top.  The spec's loop
example renders accordingly. -/
theorem c4_loops :
    (∀ (pt : Ctx → List Char → Except Fault (List Char)) (ctx : Ctx) (p b : List Char),
        pathOkB p = true → noPremClose (closeTagOf eachKw) b = true →
        processLoops realRes pt ctx (mkOpen eachKw p ++ b ++ closeTagOf eachKw)
          = match resolveValue p ctx with
            | some (.list xs) =>
              if xs.isEmpty then .ok []
              else eachItems (fun i it => pt (itemCtx ctx it i xs.length) b) 0 xs
            | _ => .ok [])
    ∧ (∀ (f : Nat → Val → Except Fault (List Char)) (i : Nat), eachItems f i [] = .ok [])
    ∧ (∀ (f : Nat → Val → Except Fault (List Char)) (i : Nat) (a : Val) (rest : List Val),
        eachItems f i (a :: rest) = (do
          let x ← f i a
          let y ← eachItems f (i + 1) rest
          Except.ok (x ++ y)))
    ∧ (∀ (ctx : Ctx) (item : Val) (i len : Nat), (∀ m, item ≠ .dict m) →
        lookupCtx "this".data (itemCtx ctx item i len) = some item
        ∧ lookupCtx "index".data (itemCtx ctx item i len) = some (.int i)
        ∧ lookupCtx "first".data (itemCtx ctx item i len) = some (.bool (i == 0))
        ∧ lookupCtx "last".data (itemCtx ctx item i len) = some (.bool (i == len - 1)))
    ∧ (∀ (ctx : Ctx) (m : List (List Char × Val)) (i len : Nat) (k : List Char) (v : Val),
        (m.map Prod.fst).Nodup → lookupCtx k m = some v →
        lookupCtx k (itemCtx ctx (.dict m) i len) = some v)
    ∧ (∀ (ctx : Ctx) (item : Val) (i len : Nat) (k : List Char),
        k ≠ "this".data → k ≠ "index".data → k ≠ "first".data → k ≠ "last".data →
        (∀ m, item = .dict m → ∀ e ∈ m, e.1 ≠ k) →
        lookupCtx k (itemCtx ctx item i len) = lookupCtx k ctx)
    ∧ render "\x7b\x7b#each items\x7d\x7d\x7b\x7bthis.name\x7d\x7d,\x7b\x7b/each\x7d\x7d"
        [("items".data, Val.list [Val.dict [("name".data, Val.str "a".data)],
          Val.dict [("name".data, Val.str "b".data)]])] = "a,b," := by
  refine ⟨?_, fun f i => rfl, fun f i a rest => rfl, ?_, ?_, ?_, by decide⟩
  · intro pt ctx p b hp hb
    simp only [processLoops]
    rw [subBlocksE_block hp hb]
    simp [realRes]
  · intro ctx item i len hnd
    match item, hnd with
    | .null, _ => exact lookup_loopBindings ctx .null i len
    | .bool b, _ => exact lookup_loopBindings ctx (.bool b) i len
    | .int n, _ => exact lookup_loopBindings ctx (.int n) i len
    | .str s, _ => exact lookup_loopBindings ctx (.str s) i len
    | .list xs, _ => exact lookup_loopBindings ctx (.list xs) i len
    | .dict m, hnd => exact absurd rfl (hnd m)
  · intro ctx m i len k v hnod hk
    exact lookup_dictUpd_found m _ hnod hk
  · intro ctx item i len k h1 h2 h3 h4 hitem
    match item with
    | .null => exact lookup_loopBindings_other ctx .null i len k h1 h2 h3 h4
    | .bool b => exact lookup_loopBindings_other ctx (.bool b) i len k h1 h2 h3 h4
    | .int n => exact lookup_loopBindings_other ctx (.int n) i len k h1 h2 h3 h4
    | .str s => exact lookup_loopBindings_other ctx (.str s) i len k h1 h2 h3 h4
    | .list xs => exact lookup_loopBindings_other ctx (.list xs) i len k h1 h2 h3 h4
    | .dict m =>
      show lookupCtx k (dictUpd _ m) = _
      rw [lookup_dictUpd_notin m _ (hitem m rfl)]
      exact lookup_loopBindings_other ctx (.dict m) i len k h1 h2 h3 h4

/-- Witness for C4: the `each` clause applied to a two-item list. -/
theorem c4_loops_witness :
    processLoops realRes (fun _ s => .ok s)
        [("items".data, Val.list [Val.str "u".data, Val.str "v".data])]
        (mkOpen eachKw "items".data ++ "B".data ++ closeTagOf eachKw)
      = eachItems (fun _ _ => .ok "B".data) 0 [Val.str "u".data, Val.str "v".data] := by
  have h := c4_loops.1 (fun _ s => .ok s)
    [("items".data, Val.list [Val.str "u".data, Val.str "v".data])]
    "items".data "B".data (by decide) (by decide)
  rw [h]
  rfl

/-- The cleanup pass applied to brace-free segments interleaved with
well-formed markers removes exactly the markers. -/
theorem cleanup_segments :
    ∀ (ps : List (List Char × List Char)) (a0 : List Char),
      (∀ c ∈ a0, c ≠ '\x7b' ∧ c ≠ '\x7d') →
      (∀ pr ∈ ps, ('\x7d' ∉ pr.1) ∧ ∀ c ∈ pr.2, c ≠ '\x7b' ∧ c ≠ '\x7d') →
      cleanup (a0 ++ (ps.map (fun pr =>
          ('\x7b' :: '\x7b' :: (pr.1 ++ ['\x7d', '\x7d'])) ++ pr.2)).flatten)
        = a0 ++ (ps.map Prod.snd).flatten := by
  intro ps
  induction ps with
  | nil =>
    intro a0 h0 _
    simp only [List.map_nil, List.flatten_nil, List.append_nil]
    have := cleanup_append_braceFree a0 [] (fun c hc => (h0 c hc).1)
    simpa [cleanup_nil] using this
  | cons pr ps ih =>
    intro a0 h0 hps
    obtain ⟨w, a⟩ := pr
    rw [List.map_cons, List.flatten_cons]
    rw [show a0 ++ ((('\x7b' :: '\x7b' :: (w ++ ['\x7d', '\x7d'])) ++ a)
        ++ (ps.map (fun pr => ('\x7b' :: '\x7b' :: (pr.1 ++ ['\x7d', '\x7d'])) ++ pr.2)).flatten)
      = a0 ++ ('\x7b' :: '\x7b' :: (w ++ '\x7d' :: '\x7d' ::
          (a ++ (ps.map (fun pr =>
            ('\x7b' :: '\x7b' :: (pr.1 ++ ['\x7d', '\x7d'])) ++ pr.2)).flatten))) by simp]
    rw [cleanup_append_braceFree a0 _ (fun c hc => (h0 c hc).1)]
    rw [cleanup_marker_head _ (hps (w, a) (by simp)).1]
    rw [ih a (fun c hc => (hps (w, a) (by simp)).2 c hc)
      (fun pr hpr => hps pr (by simp [hpr]))]
    simp

/-- C7 (amended): the cleanup pass removes every well-formed marker it scans
over; when the text consists of brace-free segments interleaved with
well-formed markers, the final text carries no `\x7b\x7b` and no `\x7d\x7d`.
(The original claim fails on stray braces — see the counterexample.) -/
theorem c7_cleanup_amended :
    ∀ (a0 : List Char) (ps : List (List Char × List Char)),
      (∀ c ∈ a0, c ≠ '\x7b' ∧ c ≠ '\x7d') →
      (∀ pr ∈ ps, ('\x7d' ∉ pr.1) ∧ ∀ c ∈ pr.2, c ≠ '\x7b' ∧ c ≠ '\x7d') →
      cleanup (a0 ++ (ps.map (fun pr =>
          ('\x7b' :: '\x7b' :: (pr.1 ++ ['\x7d', '\x7d'])) ++ pr.2)).flatten)
        = a0 ++ (ps.map Prod.snd).flatten
      ∧ containsSub ['\x7b', '\x7b'] (a0 ++ (ps.map Prod.snd).flatten) = false
      ∧ containsSub ['\x7d', '\x7d'] (a0 ++ (ps.map Prod.snd).flatten) = false := by
  intro a0 ps h0 hps
  have hchars : ∀ c ∈ a0 ++ (ps.map Prod.snd).flatten, c ≠ '\x7b' ∧ c ≠ '\x7d' := by
    intro c hc
    rcases List.mem_append.mp hc with h | h
    · exact h0 c h
    · obtain ⟨l, hl, hcl⟩ := List.mem_flatten.mp h
      obtain ⟨pr, hpr, rfl⟩ := List.mem_map.mp hl
      exact (hps pr hpr).2 c hcl
  exact ⟨cleanup_segments ps a0 h0 hps,
    containsSub_false_of_head (fun c hc => (hchars c hc).1),
    containsSub_false_of_head (fun c hc => (hchars c hc).2)⟩

/-- Counterexample for C7: the rendered output can contain literal `\x7d\x7d`
(an unmatched brace pair survives every pass), and removing markers can even
splice a new marker together. -/
theorem c7_cleanup_cex :
    render "\x7d\x7d" [] = "\x7d\x7d"
    ∧ containsSub ['\x7d', '\x7d'] (render "\x7d\x7d" []).data = true
    ∧ containsSub ['\x7b', '\x7b']
        (render "\x7b\x7ba!\x7d\x7b\x7bb!\x7d\x7d\x7d" []).data = true := by
  refine ⟨by decide, by decide, by decide⟩

/-- Witness for C7 (amended): one literal segment between two markers. -/
theorem c7_cleanup_amended_witness :
    cleanup ("A".data ++ (([("#if x".data, "B".data), ("/if".data, "C".data)]).map
        (fun pr => ('\x7b' :: '\x7b' :: (pr.1 ++ ['\x7d', '\x7d'])) ++ pr.2)).flatten)
      = "A".data ++ (([("#if x".data, "B".data), ("/if".data, "C".data)]).map
          Prod.snd).flatten :=
  (c7_cleanup_amended "A".data [("#if x".data, "B".data), ("/if".data, "C".data)]
    (by decide) (by decide)).1

/-- C8: block matching pairs the first opener with the nearest following
closing marker of the same kind, whatever the replacement does; on the
same-kind nested input the outer `if` is closed at the inner closing tag,
taking `\x7b\x7b#if b\x7d\x7dX` as the matched body. -/
theorem c8_nongreedy :
    (∀ (repl : List Char → List Char → Except Fault (List Char)) (p b rest : List Char),
        pathOkB p = true → noPremClose (closeTagOf ifKw) b = true →
        subBlocksE ifKw repl (mkOpen ifKw p ++ b ++ closeTagOf ifKw ++ rest) = (do
          let x ← repl p b
          let y ← subBlocksE ifKw repl rest
          Except.ok (x ++ y)))
    ∧ (∀ (pt : Ctx → List Char → Except Fault (List Char)),
        ifPass realRes pt [("a".data, Val.bool true)]
          "\x7b\x7b#if a\x7d\x7d\x7b\x7b#if b\x7d\x7dX\x7b\x7b/if\x7d\x7d\x7b\x7b/if\x7d\x7d".data
          = (do
            let x ← pt [("a".data, Val.bool true)] "\x7b\x7b#if b\x7d\x7dX".data
            Except.ok (x ++ "\x7b\x7b/if\x7d\x7d".data)))
    ∧ render "\x7b\x7b#if a\x7d\x7d\x7b\x7b#if b\x7d\x7dX\x7b\x7b/if\x7d\x7d\x7b\x7b/if\x7d\x7d"
        [("a".data, Val.bool true), ("b".data, Val.bool false)] = "X" := by
  refine ⟨?_, ?_, by decide⟩
  · intro repl p b rest hp hb
    exact subBlocksE_block_rest rest hp hb
  · intro pt
    show subBlocksE ifKw
        (fun p b => do
          let v ← realRes p [("a".data, Val.bool true)]
          if isTruthy v then pt [("a".data, Val.bool true)] b else Except.ok [])
        (mkOpen ifKw "a".data ++ "\x7b\x7b#if b\x7d\x7dX".data ++ closeTagOf ifKw
          ++ "\x7b\x7b/if\x7d\x7d".data)
      = _
    rw [subBlocksE_block_rest _ (by decide) (by decide)]
    have hrest : subBlocksE ifKw
        (fun p b => do
          let v ← realRes p [("a".data, Val.bool true)]
          if isTruthy v then pt [("a".data, Val.bool true)] b else Except.ok [])
        "\x7b\x7b/if\x7d\x7d".data = .ok "\x7b\x7b/if\x7d\x7d".data := by
      exact subGo_inert _ _ (scanInert_of_bounded (by decide))
    rw [hrest]
    have hval : isTruthy (resolveValue "a".data [("a".data, Val.bool true)]) = true := rfl
    simp only [realRes, ok_bind, hval, if_true]

/-- Witness for C8: one `if` block followed by trailing text, with a fixed
replacement. -/
theorem c8_nongreedy_witness :
    subBlocksE ifKw (fun _ _ => .ok "Y".data)
        (mkOpen ifKw "a".data ++ "B".data ++ closeTagOf ifKw ++ "rest".data)
      = (do
        let x ← (fun (_ _ : List Char) => (.ok "Y".data : Except Fault (List Char)))
          "a".data "B".data
        let y ← subBlocksE ifKw (fun _ _ => .ok "Y".data) "rest".data
        Except.ok (x ++ y)) :=
  c8_nongreedy.1 (fun _ _ => .ok "Y".data) "a".data "B".data "rest".data
    (by decide) (by decide)

theorem processTemplateR_succ (R : Res) (n : Nat) (ctx : Ctx) (s : List Char) :
    processTemplateR R (n + 1) ctx s = (do
      let s1 ← processConditionals R (processTemplateR R n) ctx s
      let s2 ← processLoops R (processTemplateR R n) ctx s1
      replaceSimpleVariables R ctx s2) := rfl

/-- Counterexample for C9: `é` is a Python word character, so the path
grammar accepts it and `\x7b\x7bé\x7d\x7d` substitutes from the context —
it is not restricted to `[A-Za-z0-9_]`. -/
theorem c9_wordchar_cex :
    render "\x7b\x7bé\x7d\x7d" [("é".data, Val.str "x".data)] = "x"
    ∧ ("x" : String) ≠ "" := by
  refine ⟨by decide, by decide⟩

/-- C9 (amended): the path grammar of every directive is `\w+(?:\.\w+)*`
over Python word characters (which include non-ASCII letters and digits,
not just `[A-Za-z0-9_]`).  A marker whose interior fits the grammar is
substituted; a brace-free interior that does not fit it (stated here for
code points below `0x100`, where `isPyWordChar` coincides with Python `\w`)
is left by all four passes and erased by cleanup, rendering to empty text. -/
theorem c9_wordchar_amended :
    (∀ (ctx : Ctx) (p : List Char), pathOkB p = true →
        replaceSimpleVariables realRes ctx ('\x7b' :: '\x7b' :: (p ++ ['\x7d', '\x7d']))
          = .ok (valueText (resolveValue p ctx)))
    ∧ (∀ (ctx : Ctx) (w : List Char),
        (∀ c ∈ w, c ≠ '\x7b' ∧ c ≠ '\x7d' ∧ c.toNat < 256) →
        pathOkB w = false →
        render (String.mk ('\x7b' :: '\x7b' :: (w ++ ['\x7d', '\x7d']))) ctx = "") := by
  constructor
  · intro ctx p hp
    rw [replaceSimpleVariables]
    rw [varGo_step_hit _ (varMatchAt_mk hp [])]
    rw [varGo_nil]
    simp [realRes]
  · intro ctx w hw hnp
    have hb : ∀ c ∈ w, c ≠ '\x7b' ∧ c ≠ '\x7d' :=
      fun c hc => ⟨(hw c hc).1, (hw c hc).2.1⟩
    have hifp : ifPass realRes (processTemplateR realRes 999) ctx
        ('\x7b' :: '\x7b' :: (w ++ ['\x7d', '\x7d']))
        = .ok ('\x7b' :: '\x7b' :: (w ++ ['\x7d', '\x7d'])) := by
      simp only [ifPass, subBlocksE]
      exact subGo_inert _ _ (scanInert_marker hb)
    have hunl : unlessPass realRes (processTemplateR realRes 999) ctx
        ('\x7b' :: '\x7b' :: (w ++ ['\x7d', '\x7d']))
        = .ok ('\x7b' :: '\x7b' :: (w ++ ['\x7d', '\x7d'])) := by
      simp only [unlessPass, subBlocksE]
      exact subGo_inert _ _ (scanInert_marker hb)
    have hloop : processLoops realRes (processTemplateR realRes 999) ctx
        ('\x7b' :: '\x7b' :: (w ++ ['\x7d', '\x7d']))
        = .ok ('\x7b' :: '\x7b' :: (w ++ ['\x7d', '\x7d'])) := by
      simp only [processLoops, subBlocksE]
      exact subGo_inert _ _ (scanInert_marker hb)
    have hvar : replaceSimpleVariables realRes ctx
        ('\x7b' :: '\x7b' :: (w ++ ['\x7d', '\x7d']))
        = .ok ('\x7b' :: '\x7b' :: (w ++ ['\x7d', '\x7d'])) := by
      rw [replaceSimpleVariables]
      exact varGo_inert _ _ (varInert_marker hb hnp)
    have hcond : processConditionals realRes (processTemplateR realRes 999) ctx
        ('\x7b' :: '\x7b' :: (w ++ ['\x7d', '\x7d']))
        = .ok ('\x7b' :: '\x7b' :: (w ++ ['\x7d', '\x7d'])) := by
      rw [processConditionals, hifp, ok_bind, hunl]
    have hproc : processTemplateR realRes 1000 ctx
        ('\x7b' :: '\x7b' :: (w ++ ['\x7d', '\x7d']))
        = .ok ('\x7b' :: '\x7b' :: (w ++ ['\x7d', '\x7d'])) := by
      rw [show (1000 : Nat) = 999 + 1 from rfl, processTemplateR_succ,
        hcond, ok_bind, hloop, ok_bind, hvar]
    have hclean : cleanup ('\x7b' :: '\x7b' :: (w ++ ['\x7d', '\x7d'])) = [] := by
      rw [cleanup_marker_head [] (fun hm => (hb _ hm).2 rfl), cleanup_nil]
    show String.mk (renderCoreR realRes 1000 ctx
      (String.mk ('\x7b' :: '\x7b' :: (w ++ ['\x7d', '\x7d']))).data) = ""
    rw [show (String.mk ('\x7b' :: '\x7b' :: (w ++ ['\x7d', '\x7d']))).data
        = '\x7b' :: '\x7b' :: (w ++ ['\x7d', '\x7d']) from rfl]
    simp only [renderCoreR, hproc]
    rw [hclean]

/-- Witness for C9 (amended): a space is not a word character, so
`\x7b\x7ba b\x7d\x7d` renders to nothing even when `a` is bound. -/
theorem c9_wordchar_amended_witness :
    render (String.mk ('\x7b' :: '\x7b' :: ("a b".data ++ ['\x7d', '\x7d'])))
        [("a".data, Val.str "x".data)] = "" :=
  c9_wordchar_amended.2 [("a".data, Val.str "x".data)] "a b".data
    (by decide) (by decide)

end Renderer